import Mathlib

/-!
Verification of the AzurLanel2d asset-mirroring scripts.

The repository holds three Python scripts:
  * src/1model.py      — legacy downloader (download_file, process_model3_json,
                         process_live2d_master_json, main)
  * src/1model.new.py  — reworked downloader (safe_path_join, download_file,
                         extract_assets, process_model, main)
  * src/2audio.py      — audio post-pass (download_file, get_latest_version,
                         process_audio, main)

This file gives a shallow embedding of the pure/path/string logic and of the
control flow of these functions, and proves or refutes the specification
claims about them.  Paths and text are modelled as lists of characters;
the filesystem-affecting parts are modelled as explicit event traces.
Python's os.path functions are modelled with POSIX semantics (the scripts
run on a Linux CI host).
-/

/-- Convert a string literal to the character-list representation used
throughout this development. -/
def chars (s : String) : List Char := s.data

/-- Python str.split(sep) for a single-character separator: splits keeping
empty pieces (so the result is always non-empty). -/
def pySplitChar (sep : Char) : List Char → List (List Char)
  | [] => [[]]
  | c :: cs =>
    match pySplitChar sep cs with
    | [] => [[c]]
    | h :: t => if c = sep then [] :: h :: t else (c :: h) :: t

/-- Python rel_path.split("://"): leftmost non-overlapping split on the
three-character separator "://", keeping empty pieces. -/
def splitScheme : List Char → List (List Char)
  | [] => [[]]
  | ':' :: '/' :: '/' :: cs => [] :: splitScheme cs
  | c :: cs =>
    match splitScheme cs with
    | [] => [[c]]
    | h :: t => (c :: h) :: t

/-- Python "://" in s, expressed through the split (s contains "://" iff the
split has more than one piece). -/
def hasScheme (s : List Char) : Bool := (splitScheme s).length ≠ 1

/-- CPython posixpath.join: start from the first argument; each further part
replaces the path if it is absolute, otherwise is appended with a '/'
separator unless the path so far is empty or already ends in '/'. -/
def pyJoin (base : List Char) (parts : List (List Char)) : List Char :=
  parts.foldl
    (fun path b =>
      if b.take 1 = ['/'] then b
      else if path = [] ∨ path.getLast? = some '/' then path ++ b
      else path ++ '/' :: b)
    base

/-- CPython posixpath.normpath's count of initial slashes kept on the result:
1 for a leading '/', except 2 for exactly two leading slashes, 0 for a
relative path. -/
def initialSlashes (p : List Char) : Nat :=
  if p.take 1 = ['/'] then
    if p.take 2 = ['/', '/'] ∧ p.take 3 ≠ ['/', '/', '/'] then 2 else 1
  else 0

/-- One step of CPython posixpath.normpath's component loop: drop empty and
"." components; append a component unless it is a ".." that can cancel a
previous real component; otherwise pop. -/
def normCompsStep (slashes : Nat) (acc : List (List Char)) (comp : List Char) :
    List (List Char) :=
  if comp = [] ∨ comp = ['.'] then acc
  else if comp ≠ ['.', '.'] ∨ (slashes = 0 ∧ acc = []) ∨
      (acc ≠ [] ∧ acc.getLast? = some ['.', '.']) then
    acc ++ [comp]
  else if acc ≠ [] then acc.dropLast
  else acc

/-- The normalized component list computed by posixpath.normpath. -/
def normComps (p : List Char) : List (List Char) :=
  (pySplitChar '/' p).foldl (normCompsStep (initialSlashes p)) []

/-- CPython posixpath.normpath: initial slashes, then the normalized
components joined by '/'; the empty outcome becomes ".". -/
def normpath (p : List Char) : List Char :=
  if p = [] then ['.']
  else
    let res := List.replicate (initialSlashes p) '/' ++
      List.intercalate ['/'] (normComps p)
    if res = [] then ['.'] else res

/-- The character class of re.sub in safe_path_join, r'[\\:*?"<>|]'. -/
def illegalChars : List Char := ['\\', ':', '*', '?', '"', '<', '>', '|']

/-- re.sub(r'[\\:*?"<>|]', "_", ·) acts on each character. -/
def cleanChar (c : Char) : Char := if c ∈ illegalChars then '_' else c

/-- rel_path.replace("\\", "/") acts on each character. -/
def slashify (c : Char) : Char := if c = '\\' then '/' else c

/-- The clean_parts list computed by src/1model.new.py safe_path_join
(lines 54-59): strip everything up to the last "://" when one occurs,
replace backslashes with slashes, split on '/', drop empty segments,
replace illegal characters by '_' in each segment. -/
def safeParts (relPath : List Char) : List (List Char) :=
  let rel1 := if hasScheme relPath then (splitScheme relPath).getLastD []
    else relPath
  ((pySplitChar '/' (rel1.map slashify)).filter
    (fun p => p ≠ [])).map (List.map cleanChar)

/-- src/1model.new.py safe_path_join (lines 50-61):
os.path.normpath(os.path.join(base, *clean_parts)). -/
def safePathJoin (base relPath : List Char) : List Char :=
  normpath (pyJoin base (safeParts relPath))

/-- p is strictly beneath base: p = base ++ "/" ++ rest with rest nonempty. -/
def StrictlyBeneath (base p : List Char) : Prop :=
  (base ++ ['/']).isPrefixOf p = true ∧ base.length + 1 < p.length

instance (base p : List Char) : Decidable (StrictlyBeneath base p) :=
  decidable_of_iff
    ((base ++ ['/']).isPrefixOf p = true ∧ base.length + 1 < p.length) Iff.rfl

/-! ### Fetcher control flow

src/1model.new.py download_file (lines 64-142) and src/1model.py
download_file (lines 34-92).  The network is modelled as an oracle mapping
the 0-based attempt number to the outcome of that attempt. -/

/-- Outcome of one download attempt, as seen by the retry loops:
a response that streams to completion, a response with a given HTTP status
code, a transport-level error (requests.exceptions.Timeout /
ConnectionError / other RequestException), or an IOError while writing. -/
inductive AttemptResult where
  | ok : AttemptResult
  | httpStatus (status : Nat) : AttemptResult
  | netErr : AttemptResult
  | ioErr : AttemptResult
deriving DecidableEq, Repr

/-- Both scripts set MAX_RETRIES = 5 total attempts. -/
def MAX_RETRIES : Nat := 5

/-- src/1model.new.py RETRY_DELAY = 5. -/
def RETRY_DELAY_new : Nat := 5

/-- src/1model.py RETRY_DELAY = 10. -/
def RETRY_DELAY_legacy : Nat := 10

/-- The retry loop of src/1model.new.py download_file (lines 100-142),
returning (success, number of attempts performed, sleep durations in order).
A 404 returns failure immediately; raise_for_status turns any other
400-599 status into an exception; the except clause catches both
RequestException and IOError and sleeps RETRY_DELAY * (attempt + 1)
before each retry. -/
def loopNew (net : Nat → AttemptResult) : Nat → Nat → Bool × Nat × List Nat
  | 0, attempt => (false, attempt, [])
  | remaining + 1, attempt =>
    let retry : Bool × Nat × List Nat :=
      if remaining = 0 then (false, attempt + 1, [])
      else
        let r := loopNew net remaining (attempt + 1)
        (r.1, r.2.1, RETRY_DELAY_new * (attempt + 1) :: r.2.2)
    match net attempt with
    | .ok => (true, attempt + 1, [])
    | .httpStatus s =>
      if s = 404 then (false, attempt + 1, [])
      else if 400 ≤ s ∧ s < 600 then retry
      else (true, attempt + 1, [])
    | .netErr => retry
    | .ioErr => retry

/-- The retry loop of src/1model.py download_file (lines 47-92):
Timeout/ConnectionError retries; raise_for_status raises for 400-599 and
the HTTPError handler returns failure at once for 4xx and retries for the
rest; IOError returns failure at once; each retry sleeps the constant
RETRY_DELAY. -/
def loopLegacy (net : Nat → AttemptResult) : Nat → Nat → Bool × Nat × List Nat
  | 0, attempt => (false, attempt, [])
  | remaining + 1, attempt =>
    let retry : Bool × Nat × List Nat :=
      if remaining = 0 then (false, attempt + 1, [])
      else
        let r := loopLegacy net remaining (attempt + 1)
        (r.1, r.2.1, RETRY_DELAY_legacy :: r.2.2)
    match net attempt with
    | .ok => (true, attempt + 1, [])
    | .httpStatus s =>
      if 400 ≤ s ∧ s < 500 then (false, attempt + 1, [])
      else if 500 ≤ s ∧ s < 600 then retry
      else (true, attempt + 1, [])
    | .netErr => retry
    | .ioErr => (false, attempt + 1, [])

/-- The remote size computed by src/1model.new.py download_file
(lines 83-91): -1 unless the probe was issued (not force), returned a
response (no exception, int() parse included in the try), had status 200,
and carried a Content-Length header (headers.get default -1).
The probe argument is none for an exception, otherwise the status code and
the optional parsed Content-Length value. -/
def remoteSize (force : Bool) (probe : Option (Nat × Option Int)) : Int :=
  if force then -1
  else
    match probe with
    | none => -1
    | some (status, contentLength) =>
      if status = 200 then contentLength.getD (-1) else -1

/-- The fast-path decision of src/1model.new.py download_file (lines 93-98):
skip when not force, the local file exists, the remote size is not -1 and
the local size equals it. -/
def skipFast (force : Bool) (probe : Option (Nat × Option Int))
    (localSize : Option Nat) : Bool :=
  !force &&
    match localSize with
    | none => false
    | some sz => decide (remoteSize force probe ≠ -1 ∧ (sz : Int) = remoteSize force probe)

/-- Result of one call of src/1model.new.py download_file. -/
structure DlResult where
  skipped : Bool
  success : Bool
  attempts : Nat
  sleeps : List Nat
deriving DecidableEq, Repr

/-- src/1model.new.py download_file (lines 64-142), with the filesystem
transfer abstracted away: directory creation failure returns failure before
anything else; then the size fast path; then the retry loop. -/
def downloadFileNew (force : Bool) (probe : Option (Nat × Option Int))
    (localSize : Option Nat) (mkdirOk : Bool) (net : Nat → AttemptResult) :
    DlResult :=
  if !mkdirOk then ⟨false, false, 0, []⟩
  else if skipFast force probe localSize then ⟨true, true, 0, []⟩
  else
    let r := loopNew net MAX_RETRIES 0
    ⟨false, r.1, r.2.1, r.2.2⟩

/-! ### Transfer filesystem traces

The write sections of the two download_file variants, as explicit sequences
of filesystem events applied to a map from paths to file contents.  One
attempt's transfer is parametrized by the chunks that were received before
the connection either completed or broke. -/

/-- File contents as a byte list. -/
abbrev Bytes := List Nat

/-- A filesystem: contents per path, none when the file does not exist. -/
def Fs := List Char → Option Bytes

/-- Elementary filesystem events performed by the transfer code. -/
inductive FsEvent where
  | create (p : List Char) : FsEvent
  | append (p : List Char) (chunk : Bytes) : FsEvent
  | removeFile (p : List Char) : FsEvent
  | rename (src dst : List Char) : FsEvent

/-- Effect of one event: open(p, "wb") truncates/creates, f.write appends,
os.remove deletes, os.rename moves src over dst. -/
def applyEvent (fs : Fs) : FsEvent → Fs
  | .create p => fun q => if q = p then some [] else fs q
  | .append p chunk => fun q =>
    if q = p then some ((fs p).getD [] ++ chunk) else fs q
  | .removeFile p => fun q => if q = p then none else fs q
  | .rename src dst => fun q =>
    if q = dst then fs src else if q = src then none else fs q

/-- Apply a trace of events in order. -/
def applyEvents (fs : Fs) (es : List FsEvent) : Fs := es.foldl applyEvent fs

/-- The temporary sibling name used by src/1model.new.py (line 117). -/
def tmpName (dst : List Char) : List Char := dst ++ chars ".tmp"

/-- The transfer section of src/1model.new.py download_file (lines 117-130)
for one attempt: open the .tmp sibling, append every non-empty received
chunk (the `if chunk:` guard), and only when the body completed, remove an
existing destination and rename the .tmp file over it.  On an exception
mid-transfer nothing past the writes to .tmp happens. -/
def transferTraceNew (fs0 : Fs) (dst : List Char) (received : List Bytes)
    (complete : Bool) : List FsEvent :=
  (FsEvent.create (tmpName dst) ::
    (received.filter (fun c => c ≠ [])).map (FsEvent.append (tmpName dst))) ++
  (if complete then
    (if (fs0 dst).isSome then [FsEvent.removeFile dst] else []) ++
      [FsEvent.rename (tmpName dst) dst]
  else [])

/-- The transfer section of src/1model.py download_file (lines 57-59) for
one attempt: open the destination itself and append every received chunk
(no guard, no temporary file, no rename). -/
def transferTraceLegacy (dst : List Char) (received : List Bytes) :
    List FsEvent :=
  FsEvent.create dst :: received.map (FsEvent.append dst)

/-- The full body assembled by the new transfer (empty chunks skipped). -/
def fullBodyNew (received : List Bytes) : Bytes :=
  (received.filter (fun c => c ≠ [])).flatten

/-! ### Mirror orchestrator

src/1model.new.py main, lines 247-261: for each collected model entry,
derive the host-relative reference, and only when the primary download
succeeds rewrite the entry's path and process the model's dependent
assets.  Download success is injected per entry index. -/

/-- STATIC_HOST of both downloader scripts. -/
def STATIC_HOST : List Char := chars "https://static.l2d.su/"

/-- Line 249-253: url[len(STATIC_HOST):] when the url starts with
STATIC_HOST, otherwise url.split("://")[-1]. -/
def stripHostNew (url : List Char) : List Char :=
  if STATIC_HOST.isPrefixOf url then url.drop STATIC_HOST.length
  else (splitScheme url).getLastD []

/-- A model entry: its path field plus the rest of its payload, which the
orchestrator never touches. -/
structure MEntry where
  path : List Char
  extra : List (String × String)
deriving DecidableEq, Repr, Inhabited

/-- The per-entry loop of src/1model.new.py main (lines 247-261), started
at entry index i.  Returns the entries as they stand when the manifest is
persisted, and the indices of the entries whose dependent assets were
fetched (process_model invoked).  dlOk i injects the success of the
primary download of entry i. -/
def processModelsNewFrom (dlOk : Nat → Bool) : Nat → List MEntry →
    List MEntry × List Nat
  | _, [] => ([], [])
  | i, m :: ms =>
    let rest := processModelsNewFrom dlOk (i + 1) ms
    if dlOk i then
      ({ m with path := (stripHostNew m.path).map slashify } :: rest.1,
        i :: rest.2)
    else (m :: rest.1, rest.2)

/-- The whole run over the collected entries. -/
def processModelsNew (dlOk : Nat → Bool) (entries : List MEntry) :
    List MEntry × List Nat :=
  processModelsNewFrom dlOk 0 entries

/-! ### Manifest resolver

The regex search of src/1model.new.py main (lines 206-230) and
src/1model.py main (lines 228-256) over the bootstrap script text, for the
pattern r"'(./json/)?(live2dMaster.*?\.json)\?([a-zA-Z0-9]+)'",
implemented as an explicit backtracking matcher: leftmost start position,
the optional group tried greedily, the filler .*? tried lazily, and the
version [a-zA-Z0-9]+ taken greedily (backtracking inside it cannot help
since the next pattern character, a quote, is not alphanumeric).
An unescaped regex dot matches any character except a newline. -/

/-- The regex class [a-zA-Z0-9]. -/
def isAlnumAscii (c : Char) : Bool := c.isAlpha || c.isDigit

/-- Try to match ".json?" ++ version ++ "'" at the start of s; on success
return the version and the text after the closing quote. -/
def tryTail (s : List Char) : Option (List Char × List Char) :=
  if (chars ".json?").isPrefixOf s then
    let t := s.drop 6
    let ver := t.takeWhile isAlnumAscii
    if ver ≠ [] ∧ (t.drop ver.length).take 1 = ['\''] then
      some (ver, t.drop (ver.length + 1))
    else none
  else none

/-- Lazy scan for the filler matched by .*?: at each position first try the
tail pattern, else consume one non-newline character into the filler.
Returns (filler, version, text after the match). -/
def lazyScan : List Char → Option (List Char × List Char × List Char)
  | [] => none
  | c :: cs =>
    match tryTail (c :: cs) with
    | some (ver, rest) => some ([], ver, rest)
    | none =>
      if c = '\n' then none
      else (lazyScan cs).map (fun r => (c :: r.1, r.2.1, r.2.2))

/-- Match (live2dMaster.*?\.json)\?([a-zA-Z0-9]+)' at the start of s.
Returns (group 2 text, version, text after the match). -/
def matchMaster (s : List Char) : Option (List Char × List Char × List Char) :=
  if (chars "live2dMaster").isPrefixOf s then
    (lazyScan (s.drop 12)).map
      (fun r => (chars "live2dMaster" ++ r.1 ++ chars ".json", r.2.1, r.2.2))
  else none

/-- Match the pattern body after an opening quote: the optional (./json/)
group is tried first (greedy option), with full backtracking to the
group-absent alternative.  Returns (optional group text, group 2 text,
version). -/
def matchAtQuote (s : List Char) : Option (List Char × List Char × List Char) :=
  let withPre : Option (List Char × List Char × List Char) :=
    match s with
    | c :: rest =>
      if c ≠ '\n' ∧ (chars "/json/").isPrefixOf rest then
        (matchMaster (rest.drop 6)).map
          (fun r => (c :: chars "/json/", r.1, r.2.1))
      else none
    | [] => none
  match withPre with
  | some r => some r
  | none => (matchMaster s).map (fun r => ([], r.1, r.2.1))

/-- re.search over the whole text: try each start position from the left;
a match can only start at a quote.  Returns (whole match group 0,
group 2 json name, group 3 version). -/
def reSearch : List Char → Option (List Char × List Char × List Char)
  | [] => none
  | c :: cs =>
    if c = '\'' then
      match matchAtQuote cs with
      | some (pre, name, ver) =>
        some ('\'' :: pre ++ name ++ '?' :: ver ++ ['\''], name, ver)
      | none => reSearch cs
    else reSearch cs

/-- Python s.replace(old, new) with bounded fuel; fuel ≥ s.length makes it
total because every step consumes at least one character of s. -/
def replaceAllAux (old new : List Char) : Nat → List Char → List Char
  | 0, s => s
  | _ + 1, [] => []
  | fuel + 1, c :: cs =>
    if old ≠ [] ∧ old.isPrefixOf (c :: cs) then
      new ++ replaceAllAux old new fuel ((c :: cs).drop old.length)
    else c :: replaceAllAux old new fuel cs

/-- Python s.replace(old, new) for nonempty old: leftmost non-overlapping
occurrences, all replaced. -/
def replaceAll (s old new : List Char) : List Char :=
  replaceAllAux old new s.length s

/-- TARGET_SUBDIR of both downloader scripts. -/
def TARGET_SUBDIR : List Char := chars "json"

/-- The local manifest file name derived from the version token,
f"live2dMaster{version}.json" (src/1model.new.py line 217,
src/1model.py line 248). -/
def manifestLocalName (ver : List Char) : List Char :=
  chars "live2dMaster" ++ ver ++ chars ".json"

/-- os.path.join(TARGET_SUBDIR, manifest name). -/
def masterLocalPath (ver : List Char) : List Char :=
  TARGET_SUBDIR ++ '/' :: manifestLocalName ver

/-- The bootstrap rewrite (src/1model.new.py lines 224-226,
src/1model.py lines 255-256): replace the matched fragment with
f"'{TARGET_SUBDIR}/live2dMaster{version}.json'". -/
def rewriteBootstrap (txt g0 ver : List Char) : List Char :=
  replaceAll txt g0 ('\'' :: TARGET_SUBDIR ++ '/' :: manifestLocalName ver ++ ['\''])

/-! ### Generic asset extraction

src/1model.new.py extract_assets (lines 145-162): recursive walk over a
parsed JSON value collecting into a set every string whose lowercase form
ends with one of the fixed suffixes. -/

/-- A parsed JSON value. -/
inductive Json where
  | str (s : String)
  | num (n : Int)
  | boolean (b : Bool)
  | null
  | arr (elems : List Json)
  | obj (fields : List (String × Json))

/-- The suffix tuple exts of extract_assets (line 148). -/
def exts : List String :=
  [".moc3", ".model3.json", ".json", ".png", ".wav", ".mp3"]

/-- obj.lower().endswith(e) for any e in exts (line 152); lowercasing is
per character (the suffixes are ASCII, where Python str.lower and
Char.toLower agree). -/
def matchesExt (s : String) : Bool :=
  exts.any (fun e => (chars e).isSuffixOf (s.data.map Char.toLower))

mutual

/-- extract_assets' _walk on a JSON value: a matching string joins the set;
dict values and list items are walked; other leaves contribute nothing. -/
def extractAssets : Json → Finset String
  | .str s => if matchesExt s then {s} else ∅
  | .num _ => ∅
  | .boolean _ => ∅
  | .null => ∅
  | .arr xs => extractList xs
  | .obj fs => extractFields fs

/-- _walk over the items of a JSON array. -/
def extractList : List Json → Finset String
  | [] => ∅
  | x :: xs => extractAssets x ∪ extractList xs

/-- _walk over the values of a JSON object (keys are not walked). -/
def extractFields : List (String × Json) → Finset String
  | [] => ∅
  | (_, v) :: fs => extractAssets v ∪ extractFields fs

end

/-- s occurs as a string value somewhere inside the JSON document (a string
leaf in the sense of the recursive walk: the document itself, an array item,
or an object value, transitively). -/
inductive IsStrLeaf : Json → String → Prop where
  | here (s : String) : IsStrLeaf (.str s) s
  | inArr {x : Json} {xs : List Json} {s : String} :
      IsStrLeaf x s → x ∈ xs → IsStrLeaf (.arr xs) s
  | inObj {k : String} {v : Json} {fs : List (String × Json)} {s : String} :
      IsStrLeaf v s → (k, v) ∈ fs → IsStrLeaf (.obj fs) s

/-! ### Python dictionaries and the legacy manifest pass

src/1model.py process_live2d_master_json (lines 141-208).  A Python dict
is an association list with unique keys; assignment overwrites in place or
appends, del removes the key. -/

/-- A Python dict with string keys and JSON values. -/
abbrev PyDict := List (String × Json)

/-- k in d. -/
def dictHas (d : PyDict) (k : String) : Bool := d.any (fun p => p.1 = k)

/-- d[k] = v: overwrite the existing entry, else append. -/
def dictSet (d : PyDict) (k : String) (v : Json) : PyDict :=
  if dictHas d k then d.map (fun p => if p.1 = k then (k, v) else p)
  else d ++ [(k, v)]

/-- del d[k]. -/
def dictDel (d : PyDict) (k : String) : PyDict :=
  d.filter (fun p => p.1 ≠ k)

/-- d.get(k) (None when absent). -/
def dictGet (d : PyDict) (k : String) : Option Json :=
  (d.find? (fun p => p.1 = k)).map (fun p => p.2)

/-- A character object of the legacy manifest walk: its optional charName
and its live2d entry dicts. -/
structure LCharacter where
  charName : Option String
  live2d : List PyDict

/-- A game group of the legacy manifest walk. -/
structure LGroup where
  character : List LCharacter

/-- Net effect of src/1model.py process_live2d_master_json on one live2d
entry dict: entries with a path key get the transient _charName and
_costumeName fields (lines 166-167), have path overwritten with the local
relative path when the download succeeds (lines 189-191), and both
transient fields deleted before the manifest is saved (lines 197-199);
entries without a path key are untouched.  ok and newPath inject the
download outcome and the computed local path for the entry. -/
def processedItemLegacy (ok : PyDict → Bool) (newPath : PyDict → Json)
    (charNameVal costumeVal : Json) (item : PyDict) : PyDict :=
  if dictHas item "path" then
    let it1 := dictSet (dictSet item "_charName" charNameVal)
      "_costumeName" costumeVal
    let it2 := if ok item then dictSet it1 "path" (newPath item) else it1
    dictDel (dictDel it2 "_charName") "_costumeName"
  else item

/-- The manifest as persisted by src/1model.py process_live2d_master_json:
every entry transformed by its net per-entry effect, with the transient
field values taken as in lines 166-167 (character.get("charName", default)
and live2d_item.get("costumeName", default)). -/
def processManifestLegacy (ok : PyDict → Bool) (newPath : PyDict → Json)
    (groups : List LGroup) : List LGroup :=
  groups.map (fun g =>
    ⟨g.character.map (fun c =>
      ⟨c.charName, c.live2d.map (fun item =>
        processedItemLegacy ok newPath
          (Json.str (c.charName.getD "未知角色"))
          ((dictGet item "costumeName").getD (Json.str "默认")) item)⟩)⟩)

/-! ### Audio pass

src/2audio.py process_audio (lines 60-109).  The Motions mapping is a list
of (group name, motion dict list); parse failure of the descriptor is
represented by none; an empty mapping models both a missing
FileReferences/Motions section and an empty one (both falsy). -/

/-- os.path.basename, POSIX: the suffix after the last '/'. -/
def posixBasename (p : List Char) : List Char :=
  (pySplitChar '/' p).getLastD []

/-- os.path.dirname, POSIX: everything before the last '/', with trailing
slashes stripped unless the result consists only of slashes. -/
def posixDirname (p : List Char) : List Char :=
  let head := p.take (p.length - (posixBasename p).length)
  if head ≠ [] ∧ head.any (fun c => c ≠ '/') then
    (head.reverse.dropWhile (fun c => c = '/')).reverse
  else head

/-- p starts with '/'. -/
def isAbs (p : List Char) : Bool := p.take 1 = ['/']

/-- os.path.abspath, POSIX, with an explicit current working directory:
join under cwd unless already absolute, then normalize. -/
def abspath (cwd p : List Char) : List Char :=
  if isAbs p then normpath p else normpath (pyJoin cwd [p])

/-- The non-empty components of the absolutized path, as used by
posixpath.relpath. -/
def absComps (cwd p : List Char) : List (List Char) :=
  (pySplitChar '/' (abspath cwd p)).filter (fun c => c ≠ [])

/-- os.path.commonprefix on two component lists. -/
def commonPrefixLen : List (List Char) → List (List Char) → Nat
  | a :: as, b :: bs => if a = b then commonPrefixLen as bs + 1 else 0
  | _, _ => 0

/-- os.path.relpath, POSIX, with an explicit current working directory. -/
def relpath (cwd path start : List Char) : List Char :=
  let pl := absComps cwd path
  let sl := absComps cwd start
  let i := commonPrefixLen sl pl
  let rel := List.replicate (sl.length - i) (chars "..") ++ pl.drop i
  if rel = [] then ['.'] else List.intercalate ['/'] rel

/-- The value written into motion['Audio'] on a successful download
(src/2audio.py lines 85-92): the basename of the url joined under the
descriptor-sibling audio directory, made relative to the descriptor's
directory, with backslashes turned into slashes. -/
def audioRewrite (cwd model3 url : List Char) : List Char :=
  let fn := posixBasename url
  let dir := posixDirname model3
  let localAudioPath := (pyJoin dir [chars "audio", fn]).map slashify
  (relpath cwd localAudioPath dir).map slashify

/-- One motion dict of process_audio's inner loop (lines 81-96): when the
motion has an Audio field (a string URL) and its download succeeds, the
field is rewritten in place; otherwise the motion is unchanged.  The
second component reports whether this motion set audio_found.
A non-string Audio value would raise in the Python code (caught by the
outer handler, aborting the file); the theorems assume string values. -/
def processMotionAudio (dl : String → Bool) (cwd model3 : List Char)
    (m : PyDict) : PyDict × Bool :=
  match dictGet m "Audio" with
  | some (.str u) =>
    if dl u then
      (dictSet m "Audio" (.str (String.mk (audioRewrite cwd model3 u.data))),
        true)
    else (m, false)
  | _ => (m, false)

/-- The motions mapping after the loop, and whether audio_found ended true. -/
def processAudioCore (dl : String → Bool) (cwd model3 : List Char)
    (ms : List (String × List PyDict)) : List (String × List PyDict) × Bool :=
  let processed := ms.map (fun g =>
    (g.1, g.2.map (processMotionAudio dl cwd model3)))
  (processed.map (fun g => (g.1, g.2.map (fun r => r.1))),
    processed.any (fun g => g.2.any (fun r => r.2)))

/-- Observable actions of one process_audio call. -/
inductive AudioEvent where
  | backup (p : List Char) : AudioEvent
  | fetchAudio (url : String) : AudioEvent
  | writeDescriptor (p : List Char) : AudioEvent
deriving DecidableEq

/-- The backup path (line 64):
model3_path.replace(".model3.json", f"{version}webversion.model3.json"). -/
def backupName (model3 ver : List Char) : List Char :=
  replaceAll model3 (chars ".model3.json") (ver ++ chars "webversion.model3.json")

/-- The audio download attempts issued by the loop, one per motion carrying
an Audio string, in order. -/
def fetchEvents (ms : List (String × List PyDict)) : List AudioEvent :=
  (ms.map (fun g => g.2.filterMap (fun m =>
    match dictGet m "Audio" with
    | some (.str u) => some (AudioEvent.fetchAudio u)
    | _ => none))).flatten

/-- Result of one process_audio call: its event trace and the Motions
section of the descriptor as it stands on disk afterwards. -/
structure AudioRun where
  events : List AudioEvent
  diskMotions : List (String × List PyDict)

/-- src/2audio.py process_audio (lines 60-109): the backup copy is the
first action, before the descriptor is even read; a failed copy (copyOk
false) raises and aborts the call; an unreadable/unparsable descriptor
(parsed none) aborts after the backup; an empty Motions mapping returns
before the loop; otherwise every Audio-carrying motion is attempted, and
the descriptor is written back only when at least one download succeeded,
else its on-disk content stays as parsed. -/
def processAudio (dl : String → Bool) (cwd model3 ver : List Char)
    (copyOk : Bool) (parsed : Option (List (String × List PyDict))) :
    AudioRun :=
  let bk := AudioEvent.backup (backupName model3 ver)
  if !copyOk then ⟨[bk], parsed.getD []⟩
  else
    match parsed with
    | none => ⟨[bk], []⟩
    | some ms =>
      if ms.isEmpty then ⟨[bk], ms⟩
      else
        let core := processAudioCore dl cwd model3 ms
        if core.2 then
          ⟨bk :: fetchEvents ms ++ [AudioEvent.writeDescriptor model3], core.1⟩
        else ⟨bk :: fetchEvents ms, ms⟩

/-! ## Retry-loop lemmas -/

/-- An outcome on which the spec's retry policy retries: a transport-level
error or a server-side 5xx response. -/
def RetryableOutcome (r : AttemptResult) : Prop :=
  r = .netErr ∨ ∃ s, r = .httpStatus s ∧ 500 ≤ s ∧ s < 600

theorem loopNew_retry_step (net : Nat → AttemptResult) (r a : Nat)
    (h : RetryableOutcome (net a)) :
    loopNew net (r + 1) a =
      if r = 0 then (false, a + 1, [])
      else
        ((loopNew net r (a + 1)).1, (loopNew net r (a + 1)).2.1,
          RETRY_DELAY_new * (a + 1) :: (loopNew net r (a + 1)).2.2) := by
  rcases h with h | ⟨s, hs, h5, h6⟩
  · simp [loopNew, h]
  · have h404 : ¬(s = 404) := by omega
    have h4 : 400 ≤ s := by omega
    simp [loopNew, hs, h404, h4, h6]

theorem loopLegacy_retry_step (net : Nat → AttemptResult) (r a : Nat)
    (h : RetryableOutcome (net a)) :
    loopLegacy net (r + 1) a =
      if r = 0 then (false, a + 1, [])
      else
        ((loopLegacy net r (a + 1)).1, (loopLegacy net r (a + 1)).2.1,
          RETRY_DELAY_legacy :: (loopLegacy net r (a + 1)).2.2) := by
  rcases h with h | ⟨s, hs, h5, h6⟩
  · simp [loopLegacy, h]
  · have h4xx : ¬(400 ≤ s ∧ s < 500) := by omega
    simp [loopLegacy, hs, h4xx, h5, h6]

theorem loopNew_all_retryable (net : Nat → AttemptResult) :
    ∀ r a, (∀ k, k < r → RetryableOutcome (net (a + k))) →
      loopNew net r a =
        (false, a + r,
          (List.range (r - 1)).map (fun k => RETRY_DELAY_new * (a + k + 1))) := by
  intro r
  induction r with
  | zero => intro a _; simp [loopNew]
  | succ r ih =>
    intro a h
    have h0 : RetryableOutcome (net a) := by simpa using h 0 (by omega)
    rw [loopNew_retry_step net r a h0]
    cases r with
    | zero => simp
    | succ r =>
      have hshift : ∀ k, k < r + 1 → RetryableOutcome (net (a + 1 + k)) := by
        intro k hk
        have := h (k + 1) (by omega)
        simpa [Nat.add_assoc, Nat.add_comm 1 k] using this
      rw [if_neg (by omega), ih (a + 1) hshift]
      refine Prod.ext rfl (Prod.ext ?_ ?_)
      · simp; omega
      · simp only [Nat.succ_sub_one, List.range_succ_eq_map, List.map_cons,
          List.map_map]
        refine List.cons_eq_cons.mpr ⟨by norm_num, ?_⟩
        apply List.map_congr_left
        intro k _
        simp only [Function.comp_apply]
        congr 1
        omega

theorem loopLegacy_all_retryable (net : Nat → AttemptResult) :
    ∀ r a, (∀ k, k < r → RetryableOutcome (net (a + k))) →
      loopLegacy net r a =
        (false, a + r, List.replicate (r - 1) RETRY_DELAY_legacy) := by
  intro r
  induction r with
  | zero => intro a _; simp [loopLegacy]
  | succ r ih =>
    intro a h
    have h0 : RetryableOutcome (net a) := by simpa using h 0 (by omega)
    rw [loopLegacy_retry_step net r a h0]
    cases r with
    | zero => simp
    | succ r =>
      have hshift : ∀ k, k < r + 1 → RetryableOutcome (net (a + 1 + k)) := by
        intro k hk
        have := h (k + 1) (by omega)
        simpa [Nat.add_assoc, Nat.add_comm 1 k] using this
      rw [if_neg (by omega), ih (a + 1) hshift]
      refine Prod.ext rfl (Prod.ext (by simp; omega) ?_)
      simp [List.replicate_succ]

/-! ## Claim C2 -/

/-- C2 counterexample: the claim states that every 4xx response fails
immediately with zero retries, but src/1model.new.py download_file only
special-cases 404; a persistent 403 goes through raise_for_status and the
generic exception handler, so all 5 attempts and 4 backoff sleeps happen. -/
theorem C2_counterexample :
    loopNew (fun _ => .httpStatus 403) MAX_RETRIES 0 =
      (false, 5, [5, 10, 15, 20]) ∧
    loopNew (fun _ => .httpStatus 403) MAX_RETRIES 0 ≠ (false, 1, []) := by
  constructor <;> decide

/-- C2 (amended): a 404 response makes src/1model.new.py download_file
report failure on the first attempt with zero retries; in src/1model.py
download_file every 4xx response does so; but other 4xx responses are
retried by the new fetcher. -/
theorem C2_amended :
    (∀ net : Nat → AttemptResult, net 0 = .httpStatus 404 →
      loopNew net MAX_RETRIES 0 = (false, 1, [])) ∧
    (∀ (net : Nat → AttemptResult) (s : Nat), net 0 = .httpStatus s →
      400 ≤ s → s < 500 →
      loopLegacy net MAX_RETRIES 0 = (false, 1, [])) := by
  constructor
  · intro net h
    simp [MAX_RETRIES, loopNew, h]
  · intro net s h h4 h5
    simp [MAX_RETRIES, loopLegacy, h, h4, h5]

/-- Witness for C2 (amended) at concrete oracles. -/
theorem C2_amended_witness :
    loopNew (fun _ => .httpStatus 404) MAX_RETRIES 0 = (false, 1, []) ∧
    loopLegacy (fun _ => .httpStatus 403) MAX_RETRIES 0 = (false, 1, []) :=
  ⟨C2_amended.1 _ rfl, C2_amended.2 _ 403 rfl (by omega) (by omega)⟩

/-! ## Claim C8 -/

/-- C8 counterexample: the claim states the Fetcher sleeps with linear
backoff (delay times attempt number), but src/1model.py download_file
sleeps the constant RETRY_DELAY before every retry: under persistent
network errors its sleeps are [10, 10, 10, 10], not [10, 20, 30, 40]. -/
theorem C8_counterexample :
    loopLegacy (fun _ => .netErr) MAX_RETRIES 0 =
      (false, 5, [10, 10, 10, 10]) ∧
    (loopLegacy (fun _ => .netErr) MAX_RETRIES 0).2.2 ≠
      [RETRY_DELAY_legacy * 1, RETRY_DELAY_legacy * 2, RETRY_DELAY_legacy * 3,
        RETRY_DELAY_legacy * 4] := by
  constructor <;> decide

/-- C8 (amended): on persistently retryable outcomes (network errors or
5xx responses) both fetchers use the full 5-attempt budget and report
failure only after it is exhausted; src/1model.new.py download_file sleeps
with linear backoff RETRY_DELAY * attemptNumber, while src/1model.py
download_file sleeps the constant RETRY_DELAY each time. -/
theorem C8_amended (net : Nat → AttemptResult)
    (h : ∀ a, a < MAX_RETRIES → RetryableOutcome (net a)) :
    loopNew net MAX_RETRIES 0 =
      (false, MAX_RETRIES,
        [RETRY_DELAY_new * 1, RETRY_DELAY_new * 2, RETRY_DELAY_new * 3,
          RETRY_DELAY_new * 4]) ∧
    loopLegacy net MAX_RETRIES 0 =
      (false, MAX_RETRIES,
        List.replicate (MAX_RETRIES - 1) RETRY_DELAY_legacy) := by
  constructor
  · rw [loopNew_all_retryable net MAX_RETRIES 0 (by simpa using h)]
    decide
  · rw [loopLegacy_all_retryable net MAX_RETRIES 0 (by simpa using h)]
    decide

/-- Witness for C8 (amended) at a concrete oracle. -/
theorem C8_amended_witness :
    loopNew (fun _ => .netErr) MAX_RETRIES 0 =
      (false, MAX_RETRIES,
        [RETRY_DELAY_new * 1, RETRY_DELAY_new * 2, RETRY_DELAY_new * 3,
          RETRY_DELAY_new * 4]) :=
  (C8_amended (fun _ => .netErr) (fun _ _ => Or.inl rfl)).1


/-! ## Claim C4 -/

theorem skipFast_iff (probe : Option (Nat × Option Int))
    (localSize : Option Nat) :
    skipFast false probe localSize = true ↔
      ∃ sz, localSize = some sz ∧ remoteSize false probe ≠ -1 ∧
        (sz : Int) = remoteSize false probe := by
  cases localSize with
  | none => simp [skipFast]
  | some sz => simp [skipFast]

/-- C4: with force off, src/1model.new.py download_file skips the transfer
and reports success exactly when the local file exists, the probe produced
a Content-Length other than -1, and the local size equals it; whenever the
probed remote size is -1 (probe failed, non-200 status, or absent header)
nothing is skipped and the retry loop runs. -/
theorem C4_skip_fast_path (probe : Option (Nat × Option Int))
    (localSize : Option Nat) (net : Nat → AttemptResult) :
    ((downloadFileNew false probe localSize true net).skipped = true ↔
      ∃ sz, localSize = some sz ∧ remoteSize false probe ≠ -1 ∧
        (sz : Int) = remoteSize false probe) ∧
    ((downloadFileNew false probe localSize true net).skipped = true →
      (downloadFileNew false probe localSize true net).success = true ∧
      (downloadFileNew false probe localSize true net).attempts = 0) ∧
    (remoteSize false probe = -1 →
      (downloadFileNew false probe localSize true net).skipped = false ∧
      (downloadFileNew false probe localSize true net).success =
        (loopNew net MAX_RETRIES 0).1) := by
  by_cases hs : skipFast false probe localSize = true
  · have hx := (skipFast_iff probe localSize).mp hs
    refine ⟨⟨fun _ => hx, fun _ => by simp [downloadFileNew, hs]⟩, ?_, ?_⟩
    · intro _
      simp [downloadFileNew, hs]
    · intro hr
      rcases (skipFast_iff probe localSize).mp hs with ⟨sz, _, hne, _⟩
      exact absurd hr hne
  · have hs2 : skipFast false probe localSize = false := by
      simpa using hs
    refine ⟨?_, ?_, ?_⟩
    · simp [downloadFileNew, hs2, ← skipFast_iff probe localSize, hs2]
    · intro hsk
      exact absurd hsk (by simp [downloadFileNew, hs2])
    · intro _
      simp [downloadFileNew, hs2]

/-- Witness for C4 at a concrete probe and matching local size. -/
theorem C4_skip_fast_path_witness :
    (downloadFileNew false (some (200, some 42)) (some 42) true
      (fun _ => AttemptResult.ok)).skipped = true :=
  (C4_skip_fast_path (some (200, some 42)) (some 42)
    (fun _ => AttemptResult.ok)).1.mpr ⟨42, rfl, by decide, by decide⟩

/-! ## Claim C3 -/

/-- The paths an event writes to. -/
def eventTargets : FsEvent → List (List Char)
  | .create p => [p]
  | .append p _ => [p]
  | .removeFile p => [p]
  | .rename src dst => [src, dst]

theorem applyEvent_not_target (fs : Fs) (e : FsEvent) (q : List Char)
    (h : q ∉ eventTargets e) : applyEvent fs e q = fs q := by
  cases e with
  | create p => simp [eventTargets] at h; simp [applyEvent, h]
  | append p c => simp [eventTargets] at h; simp [applyEvent, h]
  | removeFile p => simp [eventTargets] at h; simp [applyEvent, h]
  | rename src dst =>
    simp [eventTargets] at h
    simp [applyEvent, h.1, h.2]

theorem applyEvents_append (fs : Fs) (a b : List FsEvent) :
    applyEvents fs (a ++ b) = applyEvents (applyEvents fs a) b := by
  simp [applyEvents, List.foldl_append]

theorem applyEvents_not_target (fs : Fs) (es : List FsEvent) (q : List Char)
    (h : ∀ e ∈ es, q ∉ eventTargets e) : applyEvents fs es q = fs q := by
  induction es generalizing fs with
  | nil => rfl
  | cons e es ih =>
    have h1 : applyEvents fs (e :: es) = applyEvents (applyEvent fs e) es := rfl
    rw [h1, ih (applyEvent fs e) (fun x hx => h x (List.mem_cons_of_mem e hx)),
      applyEvent_not_target fs e q (h e (List.mem_cons_self e es))]

theorem tmpName_ne (dst : List Char) : tmpName dst ≠ dst := by
  intro h
  have := congrArg List.length h
  simp [tmpName, chars] at this

theorem applyEvents_appends (fs : Fs) (p : List Char) (b : Bytes) :
    ∀ (chunks : List Bytes), fs p = some b →
      applyEvents fs (chunks.map (FsEvent.append p)) p =
        some (b ++ chunks.flatten) := by
  intro chunks
  induction chunks generalizing fs b with
  | nil => intro h; simpa [applyEvents] using h
  | cons c cs ih =>
    intro h
    have h1 : applyEvents fs ((c :: cs).map (FsEvent.append p)) =
        applyEvents (applyEvent fs (FsEvent.append p c)) (cs.map (FsEvent.append p)) := rfl
    have h2 : (applyEvent fs (FsEvent.append p c)) p = some (b ++ c) := by
      simp [applyEvent, h]
    rw [h1, ih _ _ h2]
    simp

theorem applyEvents_writes_value (fs : Fs) (p : List Char)
    (chunks : List Bytes) :
    applyEvents fs (FsEvent.create p :: chunks.map (FsEvent.append p)) p =
      some chunks.flatten := by
  have h1 : applyEvents fs (FsEvent.create p :: chunks.map (FsEvent.append p)) =
      applyEvents (applyEvent fs (FsEvent.create p)) (chunks.map (FsEvent.append p)) := rfl
  have h2 : (applyEvent fs (FsEvent.create p)) p = some [] := by
    simp [applyEvent]
  rw [h1, applyEvents_appends _ p [] chunks h2]
  simp

theorem applyEvents_remove_rename (fs : Fs) (t dst : List Char)
    (htd : t ≠ dst) :
    applyEvents fs [FsEvent.removeFile dst, FsEvent.rename t dst] dst = fs t := by
  show applyEvent (applyEvent fs (FsEvent.removeFile dst))
    (FsEvent.rename t dst) dst = fs t
  simp [applyEvent, htd]

theorem applyEvents_rename_only (fs : Fs) (t dst : List Char) :
    applyEvents fs [FsEvent.rename t dst] dst = fs t := by
  show applyEvent fs (FsEvent.rename t dst) dst = fs t
  simp [applyEvent]

theorem applyEvents_remove_only (fs : Fs) (dst : List Char) :
    applyEvents fs [FsEvent.removeFile dst] dst = none := by
  show applyEvent fs (FsEvent.removeFile dst) dst = none
  simp [applyEvent]

theorem writeEvents_target (t : List Char) (chunks : List Bytes) :
    ∀ e ∈ FsEvent.create t :: chunks.map (FsEvent.append t),
      ∀ q, q ≠ t → q ∉ eventTargets e := by
  intro e he q hq
  rcases List.mem_cons.mp he with h | h
  · subst h; simp [eventTargets, hq]
  · rcases List.mem_map.mp h with ⟨c, _, rfl⟩
    simp [eventTargets, hq]

/-- C3 counterexample: the claim covers the Fetcher of both scripts, but
src/1model.py download_file opens the final destination itself and streams
into it; after a transfer that broke after one chunk the final path holds
the partial body and no .tmp artifact exists. -/
theorem C3_counterexample :
    applyEvents (fun _ => none)
      (transferTraceLegacy (chars "m.bin") [[1]]) (chars "m.bin") = some [1] ∧
    applyEvents (fun _ => none)
      (transferTraceLegacy (chars "m.bin") [[1]]) (tmpName (chars "m.bin")) =
        none ∧
    applyEvents (fun _ => none)
      ((transferTraceLegacy (chars "m.bin") [[1], [2]]).take 2)
      (chars "m.bin") = some [1] := by
  refine ⟨by decide, by decide, by decide⟩

/-- C3 (amended): the transfer of src/1model.new.py download_file streams
into the .tmp sibling and renames it over the destination only after the
full body arrived: at every point of the trace the destination holds
either its original content, nothing (the instant between os.remove and
os.rename), or the complete body — the latter only on a completed
transfer; and a transfer that fails mid-body touches nothing but the .tmp
artifact.  src/1model.py download_file has no such protection. -/
theorem C3_amended (fs0 : Fs) (dst : List Char) (received : List Bytes)
    (complete : Bool) :
    (∀ n : Nat,
      applyEvents fs0 ((transferTraceNew fs0 dst received complete).take n) dst
          = fs0 dst ∨
      applyEvents fs0 ((transferTraceNew fs0 dst received complete).take n) dst
          = none ∨
      (complete = true ∧
        applyEvents fs0 ((transferTraceNew fs0 dst received complete).take n)
          dst = some (fullBodyNew received))) ∧
    (complete = true →
      applyEvents fs0 (transferTraceNew fs0 dst received complete) dst =
        some (fullBodyNew received)) ∧
    (complete = false → ∀ p, p ≠ tmpName dst →
      applyEvents fs0 (transferTraceNew fs0 dst received complete) p = fs0 p) := by
  have htrace : transferTraceNew fs0 dst received complete =
      (FsEvent.create (tmpName dst) ::
        (received.filter (fun c => c ≠ [])).map (FsEvent.append (tmpName dst)))
      ++
      (if complete then
        (if (fs0 dst).isSome then [FsEvent.removeFile dst] else []) ++
          [FsEvent.rename (tmpName dst) dst]
      else []) := rfl
  set t := tmpName dst with ht
  have htd : t ≠ dst := tmpName_ne dst
  have hdt : dst ≠ t := fun h => htd h.symm
  set chunks := received.filter (fun c => c ≠ []) with hchunks
  set W : List FsEvent := FsEvent.create t :: chunks.map (FsEvent.append t)
    with hW
  set T : List FsEvent :=
    if complete then
      (if (fs0 dst).isSome then [FsEvent.removeFile dst] else []) ++
        [FsEvent.rename t dst]
    else [] with hT
  have hWdst : ∀ es : List FsEvent, (∀ e ∈ es, e ∈ W) →
      applyEvents fs0 es dst = fs0 dst := by
    intro es hsub
    exact applyEvents_not_target fs0 es dst
      (fun e he => writeEvents_target t chunks e (hsub e he) dst hdt)
  have hWtmp : applyEvents fs0 W t = some chunks.flatten :=
    applyEvents_writes_value fs0 t chunks
  have hfull : fullBodyNew received = chunks.flatten := rfl
  have hfsW : applyEvents fs0 W dst = fs0 dst := hWdst W (fun e he => he)
  -- the value of dst after W and then a prefix of T
  have htail : ∀ m : Nat, 1 ≤ m → complete = true →
      (applyEvents (applyEvents fs0 W) (T.take m) dst =
          some (fullBodyNew received)) ∨
        applyEvents (applyEvents fs0 W) (T.take m) dst = none := by
    intro m hm hc
    by_cases hex : (fs0 dst).isSome
    · have hTv : T = [FsEvent.removeFile dst, FsEvent.rename t dst] := by
        rw [hT, hc]
        simp [hex]
      rcases Nat.lt_or_ge m 2 with h2 | h2
      · have hm1 : m = 1 := by omega
        right
        rw [hTv, hm1]
        exact applyEvents_remove_only _ dst
      · left
        have hTm : T.take m = T :=
          List.take_of_length_le (by rw [hTv]; simpa using h2)
        rw [hTm, hTv, hfull, applyEvents_remove_rename _ t dst htd]
        exact hWtmp
    · have hTv : T = [FsEvent.rename t dst] := by
        rw [hT, hc]
        simp [hex]
      left
      have hTm : T.take m = T :=
        List.take_of_length_le (by rw [hTv]; simpa using hm)
      rw [hTm, hTv, hfull, applyEvents_rename_only _ t dst]
      exact hWtmp
  refine ⟨?_, ?_, ?_⟩
  · intro n
    have hsplit : (transferTraceNew fs0 dst received complete).take n =
        W.take n ++ T.take (n - W.length) := by
      rw [htrace, List.take_append_eq_append_take]
    rw [hsplit, applyEvents_append]
    have hpre : applyEvents fs0 (W.take n) dst = fs0 dst :=
      hWdst _ (fun e he => List.take_subset n W he)
    by_cases hn : n ≤ W.length
    · have hm : n - W.length = 0 := by omega
      rw [hm]
      left
      simpa [applyEvents] using hpre
    · have hWn : W.take n = W := List.take_of_length_le (by omega)
      rw [hWn]
      cases complete with
      | false =>
        have hTe : T = [] := by rw [hT]; simp
        rw [hTe]
        left
        simpa [applyEvents] using hfsW
      | true =>
        rcases htail (n - W.length) (by omega) rfl with h | h
        · right; right; exact ⟨rfl, h⟩
        · right; left; exact h
  · intro hc
    rw [htrace, applyEvents_append]
    by_cases hex : (fs0 dst).isSome
    · have hTv : T = [FsEvent.removeFile dst, FsEvent.rename t dst] := by
        rw [hT, hc]
        simp [hex]
      rw [hTv, hfull, applyEvents_remove_rename _ t dst htd]
      exact hWtmp
    · have hTv : T = [FsEvent.rename t dst] := by
        rw [hT, hc]
        simp [hex]
      rw [hTv, hfull, applyEvents_rename_only _ t dst]
      exact hWtmp
  · intro hc p hp
    have hTe : T = [] := by rw [hT, hc]; rfl
    rw [htrace, hTe, List.append_nil]
    exact applyEvents_not_target fs0 W p
      (fun e he => writeEvents_target t chunks e he p hp)

/-- Witness for C3 (amended) at a concrete completed transfer. -/
theorem C3_amended_witness :
    applyEvents (fun _ => none)
      (transferTraceNew (fun _ => none) (chars "m.bin") [[1], [2]] true)
      (chars "m.bin") = some [1, 2] :=
  (C3_amended (fun _ => none) (chars "m.bin") [[1], [2]] true).2.1 rfl

/-! ## Claim C5 -/

theorem processModelsNewFrom_length (dlOk : Nat → Bool) :
    ∀ (es : List MEntry) (i : Nat),
      (processModelsNewFrom dlOk i es).1.length = es.length := by
  intro es
  induction es with
  | nil => intro i; rfl
  | cons e es ih =>
    intro i
    by_cases h : dlOk i
    · simp [processModelsNewFrom, h, ih (i + 1)]
    · simp [processModelsNewFrom, h, ih (i + 1)]

theorem processModelsNewFrom_mem_deps (dlOk : Nat → Bool) :
    ∀ (es : List MEntry) (i j : Nat),
      j ∈ (processModelsNewFrom dlOk i es).2 → dlOk j = true := by
  intro es
  induction es with
  | nil => intro i j h; simp [processModelsNewFrom] at h
  | cons e es ih =>
    intro i j h
    by_cases hd : dlOk i
    · simp [processModelsNewFrom, hd] at h
      rcases h with h | h
      · exact h ▸ hd
      · exact ih (i + 1) j h
    · simp [processModelsNewFrom, hd] at h
      exact ih (i + 1) j h

theorem processModelsNewFrom_fail (dlOk : Nat → Bool) :
    ∀ (es : List MEntry) (i k : Nat), k < es.length →
      dlOk (i + k) = false →
      (processModelsNewFrom dlOk i es).1.getD k default =
        es.getD k default := by
  intro es
  induction es with
  | nil => intro i k hk _; simp at hk
  | cons e es ih =>
    intro i k hk hfail
    cases k with
    | zero =>
      have h0 : dlOk i = false := by simpa using hfail
      simp [processModelsNewFrom, h0]
    | succ k =>
      have hk2 : k < es.length := by simpa using hk
      have hfail2 : dlOk (i + 1 + k) = false := by
        have : i + 1 + k = i + (k + 1) := by omega
        rw [this]; exact hfail
      by_cases hd : dlOk i
      · simp only [processModelsNewFrom, hd, if_pos]
        simpa using ih (i + 1) k hk2 hfail2
      · simp only [processModelsNewFrom, hd, if_neg, Bool.false_eq_true,
          not_false_eq_true]
        simpa using ih (i + 1) k hk2 hfail2

theorem processModelsNewFrom_ok (dlOk : Nat → Bool) :
    ∀ (es : List MEntry) (i k : Nat), k < es.length →
      dlOk (i + k) = true →
      (i + k) ∈ (processModelsNewFrom dlOk i es).2 := by
  intro es
  induction es with
  | nil => intro i k hk; intro _; simp at hk
  | cons e es ih =>
    intro i k hk hok
    cases k with
    | zero =>
      have h0 : dlOk i = true := by simpa using hok
      simp [processModelsNewFrom, h0]
    | succ k =>
      have hk2 : k < es.length := by simpa using hk
      have hok2 : dlOk (i + 1 + k) = true := by
        have : i + 1 + k = i + (k + 1) := by omega
        rw [this]; exact hok
      have hmem := ih (i + 1) k hk2 hok2
      have heq : i + 1 + k = i + (k + 1) := by omega
      by_cases hd : dlOk i
      · have hsnd : (processModelsNewFrom dlOk i (e :: es)).2 =
            i :: (processModelsNewFrom dlOk (i + 1) es).2 := by
          simp [processModelsNewFrom, hd]
        rw [hsnd]
        exact List.mem_cons_of_mem _ (heq ▸ hmem)
      · have hsnd : (processModelsNewFrom dlOk i (e :: es)).2 =
            (processModelsNewFrom dlOk (i + 1) es).2 := by
          simp [processModelsNewFrom, hd]
        rw [hsnd]
        exact heq ▸ hmem

/-- C5: in the per-entry loop of src/1model.new.py main, an entry whose
primary download fails is left completely unchanged (in particular its
path field) and its dependent assets are never processed, while the run
still covers every entry: the persisted list has the same length and every
entry whose primary download succeeds does get its dependent assets
processed. -/
theorem C5_failed_primary_leaves_entry (dlOk : Nat → Bool)
    (entries : List MEntry) :
    (processModelsNew dlOk entries).1.length = entries.length ∧
    (∀ i, i < entries.length → dlOk i = false →
      (processModelsNew dlOk entries).1.getD i default =
        entries.getD i default ∧
      i ∉ (processModelsNew dlOk entries).2) ∧
    (∀ i, i < entries.length → dlOk i = true →
      i ∈ (processModelsNew dlOk entries).2) := by
  refine ⟨processModelsNewFrom_length dlOk entries 0, ?_, ?_⟩
  · intro i hi hfail
    constructor
    · simpa using processModelsNewFrom_fail dlOk entries 0 i hi
        (by simpa using hfail)
    · intro hmem
      have := processModelsNewFrom_mem_deps dlOk entries 0 i hmem
      rw [this] at hfail
      exact absurd hfail (by decide)
  · intro i hi hok
    simpa using processModelsNewFrom_ok dlOk entries 0 i hi
      (by simpa using hok)

/-- Witness for C5 at a concrete two-entry run whose first download fails. -/
theorem C5_failed_primary_leaves_entry_witness :
    (processModelsNew (fun i => i != 0)
        [⟨chars "https://static.l2d.su/a/a.model3.json", []⟩,
         ⟨chars "https://static.l2d.su/b/b.model3.json", []⟩]).1.getD 0 default
      = ⟨chars "https://static.l2d.su/a/a.model3.json", []⟩ ∧
    0 ∉ (processModelsNew (fun i => i != 0)
        [⟨chars "https://static.l2d.su/a/a.model3.json", []⟩,
         ⟨chars "https://static.l2d.su/b/b.model3.json", []⟩]).2 :=
  ((C5_failed_primary_leaves_entry (fun i => i != 0) _).2.1 0 (by decide) rfl)

/-! ## Claim C9 -/

theorem dictHas_dictDel_self (d : PyDict) (k : String) :
    dictHas (dictDel d k) k = false := by
  by_cases hmem : dictHas (dictDel d k) k = true
  · exfalso
    rw [dictHas, List.any_eq_true] at hmem
    rcases hmem with ⟨p, hp, hpk⟩
    have hfilt := List.of_mem_filter hp
    simp at hfilt hpk
    exact hfilt hpk
  · simpa using hmem

theorem dictHas_dictDel_of_ne (d : PyDict) (k q : String) (h : q ≠ k) :
    dictHas (dictDel d k) q = dictHas d q := by
  induction d with
  | nil => rfl
  | cons p d ih =>
    by_cases hp : p.1 = k
    · have hkq : ¬(k = q) := fun hc => h hc.symm
      simp only [dictDel, dictHas, List.filter_cons, List.any_cons] at ih ⊢
      simp [hp, hkq]
      simpa [dictDel, dictHas] using ih
    · by_cases hq : p.1 = q
      · simp [dictDel, dictHas, hp, hq, h]
      · simp only [dictDel, dictHas, List.filter_cons, List.any_cons] at ih ⊢
        simp [hp, hq]
        simpa [dictDel, dictHas] using ih

theorem processedItemLegacy_no_transient (ok : PyDict → Bool)
    (newPath : PyDict → Json) (cn co : Json) (item : PyDict)
    (h : dictHas item "path" = false →
      dictHas item "_charName" = false ∧ dictHas item "_costumeName" = false) :
    dictHas (processedItemLegacy ok newPath cn co item) "_charName" = false ∧
    dictHas (processedItemLegacy ok newPath cn co item) "_costumeName" = false := by
  by_cases hp : dictHas item "path"
  · have hform : processedItemLegacy ok newPath cn co item =
        dictDel (dictDel
          (if ok item then
            dictSet (dictSet (dictSet item "_charName" cn) "_costumeName" co)
              "path" (newPath item)
          else dictSet (dictSet item "_charName" cn) "_costumeName" co)
          "_charName") "_costumeName" := by
      simp [processedItemLegacy, hp]
    rw [hform]
    constructor
    · rw [dictHas_dictDel_of_ne _ "_costumeName" "_charName" (by decide)]
      exact dictHas_dictDel_self _ "_charName"
    · exact dictHas_dictDel_self _ "_costumeName"
  · have hp2 : dictHas item "path" = false := by simpa using hp
    have hform : processedItemLegacy ok newPath cn co item = item := by
      simp [processedItemLegacy, hp2]
    rw [hform]
    exact h hp2

/-- C9: after src/1model.py process_live2d_master_json runs, no entry of
the persisted manifest carries the transient _charName or _costumeName
fields, provided (as for any real manifest) the incoming entries that the
pass does not touch (those without a path key) did not already carry such
fields; the fields added to every path-carrying entry are deleted before
the manifest is written back. -/
theorem C9_transient_fields_stripped (ok : PyDict → Bool)
    (newPath : PyDict → Json) (groups : List LGroup)
    (h : ∀ g ∈ groups, ∀ c ∈ g.character, ∀ it ∈ c.live2d,
      dictHas it "path" = false →
      dictHas it "_charName" = false ∧ dictHas it "_costumeName" = false) :
    ∀ g ∈ processManifestLegacy ok newPath groups, ∀ c ∈ g.character,
      ∀ it ∈ c.live2d,
      dictHas it "_charName" = false ∧ dictHas it "_costumeName" = false := by
  intro g hg c hc it hit
  rcases List.mem_map.mp hg with ⟨g0, hg0, rfl⟩
  rcases List.mem_map.mp hc with ⟨c0, hc0, rfl⟩
  rcases List.mem_map.mp hit with ⟨it0, hit0, rfl⟩
  exact processedItemLegacy_no_transient ok newPath _ _ it0
    (h g0 hg0 c0 hc0 it0 hit0)

/-- Witness for C9 at a concrete one-group manifest with one path entry. -/
theorem C9_transient_fields_stripped_witness :
    dictHas
      (processedItemLegacy (fun _ => true) (fun _ => Json.str "a/b")
        (Json.str "A")
        ((dictGet [("path", Json.str "u")] "costumeName").getD (Json.str "默认"))
        [("path", Json.str "u")]) "_charName" = false := by
  have hthm := C9_transient_fields_stripped (fun _ => true)
    (fun _ => Json.str "a/b") [⟨[⟨some "A", [[("path", Json.str "u")]]⟩]⟩]
    (by
      intro g hg c hc it hit hpath
      simp at hg
      subst hg
      simp at hc
      subst hc
      simp at hit
      subst hit
      simp [dictHas] at hpath)
  exact (hthm
    ⟨[⟨some "A", [processedItemLegacy (fun _ => true) (fun _ => Json.str "a/b")
      (Json.str "A")
      ((dictGet [("path", Json.str "u")] "costumeName").getD (Json.str "默认"))
      [("path", Json.str "u")]]⟩]⟩
    (List.mem_singleton_self _)
    ⟨some "A", [processedItemLegacy (fun _ => true) (fun _ => Json.str "a/b")
      (Json.str "A")
      ((dictGet [("path", Json.str "u")] "costumeName").getD (Json.str "默认"))
      [("path", Json.str "u")]]⟩
    (List.mem_singleton_self _)
    (processedItemLegacy (fun _ => true) (fun _ => Json.str "a/b")
      (Json.str "A")
      ((dictGet [("path", Json.str "u")] "costumeName").getD (Json.str "默认"))
      [("path", Json.str "u")])
    (List.mem_singleton_self _)).1

/-! ## Claim C7 -/

mutual

theorem mem_extractAssets (j : Json) (s : String) :
    s ∈ extractAssets j ↔ IsStrLeaf j s ∧ matchesExt s = true := by
  cases j with
  | str t =>
    by_cases hm : matchesExt t = true
    · rw [extractAssets, if_pos hm]
      simp only [Finset.mem_singleton]
      constructor
      · rintro rfl
        exact ⟨IsStrLeaf.here _, hm⟩
      · rintro ⟨hl, _⟩
        cases hl
        rfl
    · rw [extractAssets, if_neg hm]
      simp only [Finset.not_mem_empty, false_iff]
      rintro ⟨hl, hms⟩
      cases hl
      exact hm hms
  | num n =>
    rw [extractAssets]
    simp only [Finset.not_mem_empty, false_iff]
    rintro ⟨hl, _⟩
    cases hl
  | boolean b =>
    rw [extractAssets]
    simp only [Finset.not_mem_empty, false_iff]
    rintro ⟨hl, _⟩
    cases hl
  | null =>
    rw [extractAssets]
    simp only [Finset.not_mem_empty, false_iff]
    rintro ⟨hl, _⟩
    cases hl
  | arr xs =>
    rw [extractAssets, mem_extractList xs s]
    constructor
    · rintro ⟨⟨x, hx, hls⟩, hm⟩
      exact ⟨IsStrLeaf.inArr hls hx, hm⟩
    · rintro ⟨hl, hm⟩
      cases hl with
      | inArr hls hx => exact ⟨⟨_, hx, hls⟩, hm⟩
  | obj fs =>
    rw [extractAssets, mem_extractFields fs s]
    constructor
    · rintro ⟨⟨kv, hkv, hls⟩, hm⟩
      exact ⟨IsStrLeaf.inObj hls (by rwa [← Prod.mk.eta (p := kv)] at hkv), hm⟩
    · rintro ⟨hl, hm⟩
      cases hl with
      | inObj hls hkv => exact ⟨⟨_, hkv, hls⟩, hm⟩

theorem mem_extractList (xs : List Json) (s : String) :
    s ∈ extractList xs ↔
      (∃ x ∈ xs, IsStrLeaf x s) ∧ matchesExt s = true := by
  match xs with
  | [] =>
    rw [extractList]
    simp
  | x :: xs =>
    rw [extractList]
    simp only [Finset.mem_union]
    rw [mem_extractAssets x s, mem_extractList xs s]
    constructor
    · rintro (⟨hl, hm⟩ | ⟨⟨y, hy, hls⟩, hm⟩)
      · exact ⟨⟨x, List.mem_cons_self x xs, hl⟩, hm⟩
      · exact ⟨⟨y, List.mem_cons_of_mem x hy, hls⟩, hm⟩
    · rintro ⟨⟨y, hy, hls⟩, hm⟩
      rcases List.mem_cons.mp hy with rfl | hy2
      · exact Or.inl ⟨hls, hm⟩
      · exact Or.inr ⟨⟨y, hy2, hls⟩, hm⟩

theorem mem_extractFields (fs : List (String × Json)) (s : String) :
    s ∈ extractFields fs ↔
      (∃ kv ∈ fs, IsStrLeaf kv.2 s) ∧ matchesExt s = true := by
  match fs with
  | [] =>
    rw [extractFields]
    simp
  | (k, v) :: fs =>
    rw [extractFields]
    simp only [Finset.mem_union]
    rw [mem_extractAssets v s, mem_extractFields fs s]
    constructor
    · rintro (⟨hl, hm⟩ | ⟨⟨kv, hkv, hls⟩, hm⟩)
      · exact ⟨⟨(k, v), List.mem_cons_self (k, v) fs, hl⟩, hm⟩
      · exact ⟨⟨kv, List.mem_cons_of_mem (k, v) hkv, hls⟩, hm⟩
    · rintro ⟨⟨kv, hkv, hls⟩, hm⟩
      rcases List.mem_cons.mp hkv with rfl | hkv2
      · exact Or.inl ⟨hls, hm⟩
      · exact Or.inr ⟨⟨kv, hkv2, hls⟩, hm⟩

end

/-- C7: extract_assets of src/1model.new.py returns exactly the set of
string leaves of the document whose lowercase form ends in one of the six
fixed suffixes, with duplicates collapsed by the set; a descriptor listing
the same texture twice contributes a single element (one fetch task), and
an empty object contributes nothing (no error). -/
theorem C7_extract_assets_exact :
    (∀ (j : Json) (s : String),
      s ∈ extractAssets j ↔ IsStrLeaf j s ∧ matchesExt s = true) ∧
    extractAssets (Json.obj [("FileReferences", Json.obj
      [("Textures", Json.arr [Json.str "tex/00.png", Json.str "tex/00.png"])])])
      = {"tex/00.png"} ∧
    (extractAssets (Json.obj [("FileReferences", Json.obj
      [("Textures",
        Json.arr [Json.str "tex/00.png", Json.str "tex/00.png"])])])).card
      = 1 ∧
    extractAssets (Json.obj []) = ∅ := by
  have hm : matchesExt "tex/00.png" = true := by decide
  refine ⟨mem_extractAssets, ?_, ?_, ?_⟩
  · simp [extractAssets, extractFields, extractList, hm]
  · simp [extractAssets, extractFields, extractList, hm]
  · simp [extractAssets, extractFields]

/-- Witness for C7 at a concrete string leaf. -/
theorem C7_extract_assets_exact_witness :
    "m.moc3" ∈ extractAssets (Json.str "m.moc3") :=
  (C7_extract_assets_exact.1 (Json.str "m.moc3") "m.moc3").mpr
    ⟨IsStrLeaf.here _, by decide⟩

/-! ## Claim C6 -/

theorem tryTail_props (s v rest : List Char) (h : tryTail s = some (v, rest)) :
    v ≠ [] ∧ ∀ c ∈ v, isAlnumAscii c = true := by
  simp only [tryTail] at h
  split at h
  · split at h
    case isTrue hcond =>
      injection h with h2
      cases h2
      exact ⟨hcond.1, fun c hc => List.mem_takeWhile_imp hc⟩
    case isFalse => exact absurd h (by simp)
  · exact absurd h (by simp)

theorem lazyScan_props :
    ∀ (s f v rest : List Char), lazyScan s = some (f, v, rest) →
      v ≠ [] ∧ ∀ c ∈ v, isAlnumAscii c = true := by
  intro s
  induction s with
  | nil =>
    intro f v rest h
    simp [lazyScan] at h
  | cons c cs ih =>
    intro f v rest h
    rw [lazyScan] at h
    split at h
    case h_1 ver rest2 heq =>
      injection h with h2
      cases h2
      exact tryTail_props (c :: cs) _ _ heq
    case h_2 heq =>
      split at h
      · exact absurd h (by simp)
      · rcases Option.map_eq_some'.mp h with ⟨r, hr, hmap⟩
        cases hmap
        exact ih r.1 r.2.1 r.2.2 (by simpa using hr)

theorem matchMaster_props (s n v rest : List Char)
    (h : matchMaster s = some (n, v, rest)) :
    (∃ f, n = chars "live2dMaster" ++ f ++ chars ".json") ∧
      v ≠ [] ∧ ∀ c ∈ v, isAlnumAscii c = true := by
  simp only [matchMaster] at h
  split at h
  · rcases Option.map_eq_some'.mp h with ⟨r, hr, hmap⟩
    have hn : chars "live2dMaster" ++ r.1 ++ chars ".json" = n :=
      congrArg (fun p => p.1) hmap
    have hv : r.2.1 = v := congrArg (fun p => p.2.1) hmap
    subst hv
    refine ⟨⟨r.1, hn.symm⟩, ?_⟩
    exact lazyScan_props _ r.1 r.2.1 r.2.2 (by simpa using hr)
  · exact absurd h (by simp)

theorem matchAtQuote_props (s pre n v : List Char)
    (h : matchAtQuote s = some (pre, n, v)) :
    (∃ f, n = chars "live2dMaster" ++ f ++ chars ".json") ∧
      v ≠ [] ∧ ∀ c ∈ v, isAlnumAscii c = true := by
  simp only [matchAtQuote] at h
  split at h
  case h_1 x heq =>
    injection h with h2
    subst h2
    -- the optional-group branch matched
    split at heq
    case h_1 c rest =>
      split at heq
      · rcases Option.map_eq_some'.mp heq with ⟨r, hr, hmap⟩
        cases hmap
        exact matchMaster_props _ r.1 r.2.1 r.2.2 (by simpa using hr)
      · exact absurd heq (by simp)
    case h_2 => exact absurd heq (by simp)
  case h_2 heq =>
    rcases Option.map_eq_some'.mp h with ⟨r, hr, hmap⟩
    cases hmap
    exact matchMaster_props _ r.1 r.2.1 r.2.2 (by simpa using hr)

theorem reSearch_props :
    ∀ (txt g0 name ver : List Char),
      reSearch txt = some (g0, name, ver) →
      (∃ f, name = chars "live2dMaster" ++ f ++ chars ".json") ∧
      ver ≠ [] ∧ (∀ c ∈ ver, isAlnumAscii c = true) ∧
      ∃ pre, g0 = '\'' :: pre ++ name ++ '?' :: ver ++ ['\''] := by
  intro txt
  induction txt with
  | nil =>
    intro g0 name ver h
    simp [reSearch] at h
  | cons c cs ih =>
    intro g0 name ver h
    rw [reSearch] at h
    split at h
    · split at h
      case h_1 pre nm vr heq =>
        injection h with h2
        cases h2
        have hp := matchAtQuote_props cs _ _ _ heq
        exact ⟨hp.1, hp.2.1, hp.2.2, ⟨_, rfl⟩⟩
      case h_2 => exact ih g0 name ver h
    · exact ih g0 name ver h

/-- C6: whenever the bootstrap search of src/1model.new.py main (and
src/1model.py main) finds a match, the extracted version token is a
non-empty alphanumeric string, the whole match has the quoted shape
'live2dMaster<filler>.json?<version>' with an optional prefix, the local
manifest file is named live2dMaster<version>.json under the json
subdirectory (derived from the token, not the original filename); and on
the spec's scenario text the match is exactly the whole fragment, the
version is abc123, the manifest path is json/live2dMasterabc123.json and
the rewritten bootstrap text is 'json/live2dMasterabc123.json'. -/
theorem C6_manifest_resolution :
    (∀ txt g0 name ver : List Char,
      reSearch txt = some (g0, name, ver) →
      ver ≠ [] ∧ (∀ c ∈ ver, isAlnumAscii c = true) ∧
      (∃ f, name = chars "live2dMaster" ++ f ++ chars ".json") ∧
      (∃ pre, g0 = '\'' :: pre ++ name ++ '?' :: ver ++ ['\'']) ∧
      masterLocalPath ver = chars "json/live2dMaster" ++ ver ++ chars ".json")
    ∧ reSearch (chars "'./json/live2dMasterXYZ.json?abc123'") =
        some (chars "'./json/live2dMasterXYZ.json?abc123'",
          chars "live2dMasterXYZ.json", chars "abc123")
    ∧ manifestLocalName (chars "abc123") = chars "live2dMasterabc123.json"
    ∧ masterLocalPath (chars "abc123") = chars "json/live2dMasterabc123.json"
    ∧ rewriteBootstrap (chars "'./json/live2dMasterXYZ.json?abc123'")
        (chars "'./json/live2dMasterXYZ.json?abc123'") (chars "abc123") =
        chars "'json/live2dMasterabc123.json'" := by
  refine ⟨?_, by decide, by decide, by decide, by decide⟩
  intro txt g0 name ver h
  have hp := reSearch_props txt g0 name ver h
  exact ⟨hp.2.1, hp.2.2.1, hp.1, hp.2.2.2, rfl⟩

/-- Witness for C6 applying the general part at the scenario text. -/
theorem C6_manifest_resolution_witness :
    chars "abc123" ≠ [] ∧
    (∀ c ∈ chars "abc123", isAlnumAscii c = true) ∧
    (∃ f, chars "live2dMasterXYZ.json" =
      chars "live2dMaster" ++ f ++ chars ".json") ∧
    (∃ pre, chars "'./json/live2dMasterXYZ.json?abc123'" =
      '\'' :: pre ++ chars "live2dMasterXYZ.json" ++ '?' :: chars "abc123" ++
        ['\'']) ∧
    masterLocalPath (chars "abc123") =
      chars "json/live2dMaster" ++ chars "abc123" ++ chars ".json" :=
  C6_manifest_resolution.1 _ _ _ _ C6_manifest_resolution.2.1

/-! ## Path lemmas

Infrastructure about pySplitChar, pyJoin, normpath shared by the claims
about safe_path_join (C1) and the audio rewrite (C10). -/

theorem pySplitChar_ne_nil (sep : Char) (s : List Char) :
    pySplitChar sep s ≠ [] := by
  cases s with
  | nil => simp [pySplitChar]
  | cons c cs =>
    rw [pySplitChar]
    rcases h : pySplitChar sep cs with _ | ⟨h1, t1⟩
    · simp
    · by_cases hc : c = sep <;> simp [hc]

theorem pySplitChar_cons_sep (sep : Char) (t : List Char) :
    pySplitChar sep (sep :: t) = [] :: pySplitChar sep t := by
  rw [pySplitChar]
  rcases h : pySplitChar sep t with _ | ⟨h1, t1⟩
  · exact absurd h (pySplitChar_ne_nil sep t)
  · simp

theorem pySplitChar_cons_ne (sep c : Char) (t : List Char) (hc : c ≠ sep) :
    pySplitChar sep (c :: t) =
      (c :: (pySplitChar sep t).headD []) :: (pySplitChar sep t).tail := by
  rw [pySplitChar]
  rcases h : pySplitChar sep t with _ | ⟨h1, t1⟩
  · exact absurd h (pySplitChar_ne_nil sep t)
  · simp [hc]

theorem pySplitChar_append (sep : Char) (xs ys : List Char) :
    pySplitChar sep (xs ++ sep :: ys) =
      pySplitChar sep xs ++ pySplitChar sep ys := by
  induction xs with
  | nil => rw [List.nil_append, pySplitChar_cons_sep]; rfl
  | cons c cs ih =>
    by_cases hc : c = sep
    · subst hc
      rw [List.cons_append, pySplitChar_cons_sep, pySplitChar_cons_sep, ih]
      simp
    · rw [List.cons_append, pySplitChar_cons_ne sep c _ hc,
        pySplitChar_cons_ne sep c _ hc, ih]
      rcases h : pySplitChar sep cs with _ | ⟨h1, t1⟩
      · exact absurd h (pySplitChar_ne_nil sep cs)
      · simp

theorem pySplitChar_of_not_mem (sep : Char) (s : List Char)
    (h : sep ∉ s) : pySplitChar sep s = [s] := by
  induction s with
  | nil => rfl
  | cons c cs ih =>
    have hc : c ≠ sep := fun hcc => h (hcc ▸ List.mem_cons_self c cs)
    have hcs : sep ∉ cs := fun hm => h (List.mem_cons_of_mem c hm)
    rw [pySplitChar_cons_ne sep c cs hc, ih hcs]
    simp

theorem not_mem_of_mem_pySplitChar (sep : Char) (s p : List Char)
    (hp : p ∈ pySplitChar sep s) : sep ∉ p := by
  induction s generalizing p with
  | nil =>
    simp [pySplitChar] at hp
    subst hp
    simp
  | cons c cs ih =>
    by_cases hc : c = sep
    · subst hc
      rw [pySplitChar_cons_sep] at hp
      rcases List.mem_cons.mp hp with rfl | hp2
      · simp
      · exact ih p hp2
    · rw [pySplitChar_cons_ne sep c cs hc] at hp
      rcases List.mem_cons.mp hp with rfl | hp2
      · intro hmem
        rcases h : pySplitChar sep cs with _ | ⟨h1, t1⟩
        · exact absurd h (pySplitChar_ne_nil sep cs)
        · rw [h] at hmem
          simp at hmem
          rcases hmem with hmem | hmem
          · exact hc hmem.symm
          · exact ih h1 (h ▸ List.mem_cons_self h1 t1) hmem
      · rcases h : pySplitChar sep cs with _ | ⟨h1, t1⟩
        · exact absurd h (pySplitChar_ne_nil sep cs)
        · rw [h] at hp2
          exact ih p (h ▸ List.mem_cons_of_mem h1 (by simpa [h] using hp2))

/-- A path segment that posixpath.normpath passes through unchanged. -/
def NormalSeg (c : List Char) : Prop :=
  c ≠ [] ∧ c ≠ ['.'] ∧ c ≠ ['.', '.'] ∧ '/' ∉ c

instance (c : List Char) : Decidable (NormalSeg c) :=
  decidable_of_iff (c ≠ [] ∧ c ≠ ['.'] ∧ c ≠ ['.', '.'] ∧ '/' ∉ c) Iff.rfl

theorem normCompsStep_normal (sl : Nat) (acc : List (List Char))
    (c : List Char) (h : NormalSeg c) :
    normCompsStep sl acc c = acc ++ [c] := by
  rw [normCompsStep, if_neg (by simp [h.1, h.2.1]), if_pos (Or.inl h.2.2.1)]

theorem normCompsStep_nil (sl : Nat) (acc : List (List Char)) :
    normCompsStep sl acc [] = acc := by
  rw [normCompsStep, if_pos (Or.inl rfl)]

theorem foldl_normCompsStep_normal (sl : Nat) (l : List (List Char))
    (hl : ∀ c ∈ l, NormalSeg c) :
    ∀ acc, l.foldl (normCompsStep sl) acc = acc ++ l := by
  induction l with
  | nil => intro acc; simp
  | cons c cs ih =>
    intro acc
    rw [List.foldl_cons,
      normCompsStep_normal sl acc c (hl c (List.mem_cons_self c cs)),
      ih (fun x hx => hl x (List.mem_cons_of_mem c hx))]
    simp

theorem pySplitChar_flatten (parts : List (List Char)) :
    ∀ s : List Char, (∀ p ∈ parts, '/' ∉ p) → '/' ∉ s →
      pySplitChar '/' (s ++ (parts.map (fun p => '/' :: p)).flatten) =
        s :: parts := by
  induction parts with
  | nil =>
    intro s _ hs
    simpa using pySplitChar_of_not_mem '/' s hs
  | cons p ps ih =>
    intro s hp hs
    have h1 : (((p :: ps).map (fun p => '/' :: p)).flatten : List Char) =
        '/' :: (p ++ (ps.map (fun p => '/' :: p)).flatten) := by simp
    rw [h1, pySplitChar_append '/' s _,
      ih p (fun x hx => hp x (List.mem_cons_of_mem p hx))
        (hp p (List.mem_cons_self p ps)),
      pySplitChar_of_not_mem '/' s hs]
    simp

theorem intercalate_eq_flatten (sep : List Char) :
    ∀ (x : List Char) (xs : List (List Char)),
      List.intercalate sep (x :: xs) =
        x ++ (xs.map (fun p => sep ++ p)).flatten := by
  intro x xs
  induction xs generalizing x with
  | nil => simp [List.intercalate]
  | cons y ys ih =>
    have h1 : List.intercalate sep (x :: y :: ys) =
        x ++ (sep ++ List.intercalate sep (y :: ys)) := by
      simp [List.intercalate, List.intersperse_cons_cons]
    rw [h1, ih y]
    simp

theorem pyJoin_single (x y : List Char) :
    pyJoin x [y] =
      if y.take 1 = ['/'] then y
      else if x = [] ∨ x.getLast? = some '/' then x ++ y
      else x ++ '/' :: y := rfl

theorem pyJoin_cons (x y : List Char) (ys : List (List Char)) :
    pyJoin x (y :: ys) = pyJoin (pyJoin x [y]) ys := rfl

theorem mem_of_getLast?_eq {l : List Char} {a : Char}
    (h : l.getLast? = some a) : a ∈ l := by
  have hmem : a ∈ l.getLast? := by rw [h]; rfl
  rcases List.mem_getLast?_eq_getLast hmem with ⟨hne, heq⟩
  rw [heq]
  exact List.getLast_mem hne

theorem take_one_ne_slash {p : List Char} (h0 : p ≠ []) (h1 : '/' ∉ p) :
    ¬(p.take 1 = ['/']) := by
  rcases p with _ | ⟨c, cs⟩
  · exact absurd rfl h0
  · have hc : c ≠ '/' := fun hc => h1 (hc ▸ List.mem_cons_self c cs)
    simp [hc]

theorem pyJoin_normal (parts : List (List Char))
    (hp : ∀ p ∈ parts, p ≠ [] ∧ '/' ∉ p) :
    ∀ base : List Char, base ≠ [] → base.getLast? ≠ some '/' →
      pyJoin base parts = base ++ (parts.map (fun p => '/' :: p)).flatten := by
  induction parts with
  | nil => intro base _ _; simp [pyJoin]
  | cons p ps ih =>
    intro base hb hbl
    have hpp := hp p (List.mem_cons_self p ps)
    have hstep : pyJoin base (p :: ps) = pyJoin (base ++ '/' :: p) ps := by
      rw [pyJoin_cons, pyJoin_single, if_neg (take_one_ne_slash hpp.1 hpp.2),
        if_neg (by push_neg; exact ⟨hb, hbl⟩)]
    have hne2 : base ++ '/' :: p ≠ [] := by simp
    have hl2 : (base ++ '/' :: p).getLast? ≠ some '/' := by
      rw [List.getLast?_append_of_ne_nil base
        (by simp : ('/' :: p : List Char) ≠ [])]
      rcases p with _ | ⟨c, cs⟩
      · exact absurd rfl hpp.1
      · rw [show (('/' :: c :: cs : List Char)) = ['/'] ++ (c :: cs) from rfl,
          List.getLast?_append_of_ne_nil _ (by simp)]
        intro hsome
        exact hpp.2 (mem_of_getLast?_eq hsome)
    rw [hstep, ih (fun x hx => hp x (List.mem_cons_of_mem p hx)) _ hne2 hl2]
    simp

theorem initialSlashes_cons_ne (c : Char) (l : List Char) (hc : c ≠ '/') :
    initialSlashes (c :: l) = 0 := by
  rw [initialSlashes, if_neg]
  simp [hc]

theorem initialSlashes_slash_cons_ne (c : Char) (l : List Char)
    (hc : c ≠ '/') : initialSlashes ('/' :: c :: l) = 1 := by
  rw [initialSlashes, if_pos (by simp), if_neg]
  simp [hc]

theorem initialSlashes_two_slash_cons_ne (c : Char) (l : List Char)
    (hc : c ≠ '/') : initialSlashes ('/' :: '/' :: c :: l) = 2 := by
  rw [initialSlashes, if_pos (by simp), if_pos]
  simp [hc]

theorem initialSlashes_three_slash (l : List Char) :
    initialSlashes ('/' :: '/' :: '/' :: l) = 1 := by
  rw [initialSlashes, if_pos (by simp), if_neg]
  simp

theorem initialSlashes_congr (s t : List Char) (h : s.take 3 = t.take 3) :
    initialSlashes s = initialSlashes t := by
  have h1 : s.take 1 = t.take 1 := by
    have hs : (s.take 3).take 1 = s.take 1 := by
      rw [List.take_take]; norm_num
    have ht : (t.take 3).take 1 = t.take 1 := by
      rw [List.take_take]; norm_num
    rw [← hs, ← ht, h]
  have h2 : s.take 2 = t.take 2 := by
    have hs : (s.take 3).take 2 = s.take 2 := by
      rw [List.take_take]; norm_num
    have ht : (t.take 3).take 2 = t.take 2 := by
      rw [List.take_take]; norm_num
    rw [← hs, ← ht, h]
  rw [initialSlashes, initialSlashes, h1, h2, h]

theorem take_three_append (s x : List Char) (h : 3 ≤ s.length) :
    (s ++ x).take 3 = s.take 3 := by
  rw [List.take_append_eq_append_take]
  have : 3 - s.length = 0 := by omega
  rw [this]
  simp

theorem initialSlashes_append_slashEnd (s : List Char) (b0 : Char)
    (bt : List Char) (hend : s.getLast? = some '/') (hb0 : b0 ≠ '/') :
    initialSlashes (s ++ b0 :: bt) = initialSlashes s := by
  match s with
  | [] => simp at hend
  | [c1] =>
    have hc1 : c1 = '/' := by simpa using hend
    subst hc1
    rw [show (['/'] ++ b0 :: bt : List Char) = '/' :: b0 :: bt from rfl,
      initialSlashes_slash_cons_ne b0 bt hb0]
    decide
  | [c1, c2] =>
    have hc2 : c2 = '/' := by simpa using hend
    subst hc2
    by_cases hc1 : c1 = '/'
    · subst hc1
      rw [show (['/', '/'] ++ b0 :: bt : List Char) = '/' :: '/' :: b0 :: bt
          from rfl, initialSlashes_two_slash_cons_ne b0 bt hb0]
      decide
    · rw [show ((c1 :: ['/'] ++ b0 :: bt : List Char)) =
          c1 :: ('/' :: b0 :: bt) from rfl,
        initialSlashes_cons_ne c1 _ hc1, initialSlashes_cons_ne c1 _ hc1]
  | c1 :: c2 :: c3 :: r =>
    exact initialSlashes_congr _ _ (take_three_append _ _
      (by simp only [List.length_cons]; omega))

theorem initialSlashes_append_sep (s b : List Char) (hs : s ≠ [])
    (hend : s.getLast? ≠ some '/') :
    initialSlashes (s ++ '/' :: b) = initialSlashes s := by
  match s with
  | [c1] =>
    have hc1 : c1 ≠ '/' := by simpa using hend
    rw [show (([c1] ++ '/' :: b : List Char)) = c1 :: ('/' :: b) from rfl,
      initialSlashes_cons_ne c1 _ hc1, initialSlashes_cons_ne c1 _ hc1]
  | [c1, c2] =>
    have hc2 : c2 ≠ '/' := by simpa using hend
    by_cases hc1 : c1 = '/'
    · subst hc1
      rw [show ((['/', c2] ++ '/' :: b : List Char)) = '/' :: c2 :: '/' :: b
          from rfl, initialSlashes_slash_cons_ne c2 _ hc2,
        initialSlashes_slash_cons_ne c2 _ hc2]
    · rw [show ((c1 :: [c2] ++ '/' :: b : List Char)) = c1 :: (c2 :: '/' :: b)
          from rfl, initialSlashes_cons_ne c1 _ hc1,
        initialSlashes_cons_ne c1 _ hc1]
  | c1 :: c2 :: c3 :: r =>
    exact initialSlashes_congr _ _ (take_three_append _ _
      (by simp only [List.length_cons]; omega))

theorem initialSlashes_pyJoin_single (s b : List Char) (hs : s ≠ [])
    (hb : b ≠ []) (hbs : '/' ∉ b) :
    initialSlashes (pyJoin s [b]) = initialSlashes s := by
  rcases b with _ | ⟨b0, bt⟩
  · exact absurd rfl hb
  have hb0 : b0 ≠ '/' := fun hc => hbs (hc ▸ List.mem_cons_self b0 bt)
  rw [pyJoin_single, if_neg (take_one_ne_slash hb hbs)]
  by_cases hend : s = [] ∨ s.getLast? = some '/'
  · rw [if_pos hend]
    rcases hend with rfl | hend
    · exact absurd rfl hs
    · exact initialSlashes_append_slashEnd s b0 bt hend hb0
  · rw [if_neg hend]
    push_neg at hend
    exact initialSlashes_append_sep s (b0 :: bt) hs hend.2

theorem normComps_entries (p : List Char) :
    ∀ x ∈ normComps p, x ≠ [] ∧ '/' ∉ x := by
  have hsplit : ∀ q ∈ pySplitChar '/' p, '/' ∉ q :=
    fun q hq => not_mem_of_mem_pySplitChar '/' p q hq
  rw [normComps]
  generalize hsl : initialSlashes p = sl
  have hgen : ∀ (l : List (List Char)) (acc : List (List Char)),
      (∀ q ∈ l, '/' ∉ q) → (∀ x ∈ acc, x ≠ [] ∧ '/' ∉ x) →
      ∀ x ∈ l.foldl (normCompsStep sl) acc, x ≠ [] ∧ '/' ∉ x := by
    intro l
    induction l with
    | nil => intro acc _ hacc x hx; exact hacc x hx
    | cons c cs ih =>
      intro acc hl hacc x hx
      rw [List.foldl_cons] at hx
      refine ih _ (fun q hq => hl q (List.mem_cons_of_mem c hq)) ?_ x hx
      intro y hy
      rw [normCompsStep] at hy
      split at hy
      · exact hacc y hy
      · split at hy
        · rcases List.mem_append.mp hy with hy2 | hy2
          · exact hacc y hy2
          · have hyc : y = c := by simpa using hy2
            subst hyc
            rename_i houter hinner
            push_neg at houter
            exact ⟨houter.1, hl y (List.mem_cons_self _ _)⟩
        · split at hy
          · exact hacc y (List.dropLast_subset _ hy)
          · exact hacc y hy
  exact hgen _ [] hsplit (by simp)

theorem normpath_of_normal (base : List Char) (parts : List (List Char))
    (hb : NormalSeg base) (hp : ∀ p ∈ parts, NormalSeg p) :
    pyJoin base parts = base ++ (parts.map (fun p => '/' :: p)).flatten ∧
    normpath (pyJoin base parts) = pyJoin base parts := by
  have hbl : base.getLast? ≠ some '/' := fun h => hb.2.2.2 (mem_of_getLast?_eq h)
  have hj := pyJoin_normal parts
    (fun p hp2 => ⟨(hp p hp2).1, (hp p hp2).2.2.2⟩) base hb.1 hbl
  refine ⟨hj, ?_⟩
  rw [hj]
  obtain ⟨b0, bt, rfl⟩ : ∃ b0 bt, base = b0 :: bt := by
    rcases base with _ | ⟨b0, bt⟩
    · exact absurd rfl hb.1
    · exact ⟨b0, bt, rfl⟩
  have hb0 : b0 ≠ '/' := fun hc => hb.2.2.2 (hc ▸ List.mem_cons_self b0 bt)
  have hJform : ((b0 :: bt) ++ (parts.map (fun p => '/' :: p)).flatten
      : List Char) =
      b0 :: (bt ++ (parts.map (fun p => '/' :: p)).flatten) := by simp
  have hJne : ((b0 :: bt) ++ (parts.map (fun p => '/' :: p)).flatten
      : List Char) ≠ [] := by simp
  have hslash : initialSlashes
      ((b0 :: bt) ++ (parts.map (fun p => '/' :: p)).flatten) = 0 := by
    rw [hJform]
    exact initialSlashes_cons_ne b0 _ hb0
  have hsplit : pySplitChar '/'
      ((b0 :: bt) ++ (parts.map (fun p => '/' :: p)).flatten) =
      (b0 :: bt) :: parts :=
    pySplitChar_flatten parts (b0 :: bt)
      (fun p hp2 => (hp p hp2).2.2.2) hb.2.2.2
  have hcomps : normComps
      ((b0 :: bt) ++ (parts.map (fun p => '/' :: p)).flatten) =
      (b0 :: bt) :: parts := by
    rw [normComps, hslash, hsplit,
      foldl_normCompsStep_normal 0 ((b0 :: bt) :: parts) ?_ []]
    · simp
    · intro c hc
      rcases List.mem_cons.mp hc with rfl | hc2
      · exact hb
      · exact hp c hc2
  rw [normpath, if_neg hJne]
  simp only [hslash, hcomps, List.replicate_zero, List.nil_append]
  rw [intercalate_eq_flatten]
  simp only [List.singleton_append]
  rw [if_neg hJne]

theorem cleanChar_not_illegal (c : Char) : cleanChar c ∉ illegalChars := by
  rw [cleanChar]
  by_cases h : c ∈ illegalChars
  · rw [if_pos h]; decide
  · rw [if_neg h]; exact h

theorem cleanChar_ne_slash (c : Char) (h : c ≠ '/') : cleanChar c ≠ '/' := by
  rw [cleanChar]
  by_cases hc : c ∈ illegalChars
  · rw [if_pos hc]; decide
  · rw [if_neg hc]; exact h

theorem safeParts_normal (rel : List Char)
    (hdot : ∀ p ∈ safeParts rel, p ≠ ['.'] ∧ p ≠ ['.', '.']) :
    ∀ p ∈ safeParts rel, NormalSeg p := by
  intro p hp
  rw [safeParts] at hp
  rcases List.mem_map.mp hp with ⟨q, hq, rfl⟩
  have hqf := List.of_mem_filter hq
  have hqne : q ≠ [] := by simpa using hqf
  have hqmem : q ∈ pySplitChar '/' _ := List.mem_of_mem_filter hq
  have hqs : '/' ∉ q := not_mem_of_mem_pySplitChar '/' _ q hqmem
  refine ⟨by simpa using hqne, (hdot _ hp).1, (hdot _ hp).2, ?_⟩
  intro hsl
  rcases List.mem_map.mp hsl with ⟨c, hc, hcc⟩
  exact cleanChar_ne_slash c (fun hce => hqs (hce ▸ hc)) hcc

/-- C1 counterexample: safe_path_join does not neutralize ".." segments,
and os.path.normpath collapses them, so a reference with "../.." escapes
the base directory: safe_path_join("data", "../../etc/passwd") is
"../etc/passwd", which is not beneath "data". -/
theorem C1_counterexample :
    safePathJoin (chars "data") (chars "../../etc/passwd") =
      chars "../etc/passwd" ∧
    ¬ StrictlyBeneath (chars "data")
        (safePathJoin (chars "data") (chars "../../etc/passwd")) := by
  constructor
  · decide
  · decide

/-- C1 (amended): for a base that is a plain single directory name (no
separators, not "." or "..", no illegal characters) and a reference whose
cleaned segments are non-empty and contain no "." or ".." segment, the
sanitized path is strictly beneath the base and contains no character from
the illegal set; references with ".." segments can escape the base. -/
theorem C1_amended (base rel : List Char)
    (hbase : NormalSeg base)
    (hbc : ∀ c ∈ base, c ∉ illegalChars)
    (hne : safeParts rel ≠ [])
    (hdot : ∀ p ∈ safeParts rel, p ≠ ['.'] ∧ p ≠ ['.', '.']) :
    StrictlyBeneath base (safePathJoin base rel) ∧
    ∀ c ∈ safePathJoin base rel, c ∉ illegalChars := by
  have hparts := safeParts_normal rel hdot
  have hmain := normpath_of_normal base (safeParts rel) hbase hparts
  have hval : safePathJoin base rel =
      base ++ ((safeParts rel).map (fun p => '/' :: p)).flatten := by
    rw [safePathJoin, hmain.2, hmain.1]
  obtain ⟨p0, ps, hps⟩ : ∃ p0 ps, safeParts rel = p0 :: ps := by
    rcases h : safeParts rel with _ | ⟨p0, ps⟩
    · exact absurd h hne
    · exact ⟨p0, ps, rfl⟩
  have hp0 := hparts p0 (hps ▸ List.mem_cons_self p0 ps)
  constructor
  · constructor
    · rw [hval, hps, List.isPrefixOf_iff_prefix]
      refine ⟨p0 ++ ((ps.map (fun p => '/' :: p)).flatten), ?_⟩
      simp
    · rw [hval, hps]
      obtain ⟨c0, cs, rfl⟩ : ∃ c0 cs, p0 = c0 :: cs := by
        rcases p0 with _ | ⟨c0, cs⟩
        · exact absurd rfl hp0.1
        · exact ⟨c0, cs, rfl⟩
      simp only [List.length_append, List.length_cons, List.flatten_cons,
        List.map_cons]
      omega
  · intro c hc
    rw [hval] at hc
    rcases List.mem_append.mp hc with hc2 | hc2
    · exact hbc c hc2
    · rcases List.mem_flatten.mp hc2 with ⟨l, hl, hcl⟩
      rcases List.mem_map.mp hl with ⟨p, hpmem, rfl⟩
      rcases List.mem_cons.mp hcl with rfl | hcp
      · decide
      · rw [safeParts] at hpmem
        rcases List.mem_map.mp hpmem with ⟨q, _, rfl⟩
        rcases List.mem_map.mp hcp with ⟨c1, _, rfl⟩
        exact cleanChar_not_illegal c1

/-- Witness for C1 (amended) at a concrete base and reference. -/
theorem C1_amended_witness :
    StrictlyBeneath (chars "data")
      (safePathJoin (chars "data") (chars "live2d/azur?lane/m.moc3")) :=
  (C1_amended (chars "data") (chars "live2d/azur?lane/m.moc3")
    (by decide) (by decide) (by decide) (by decide)).1

/-! ## Absolute-path and relpath lemmas (for the audio pass) -/

theorem pySplitChar_replicate_slash (k : Nat) (z : List Char) :
    pySplitChar '/' (List.replicate k '/' ++ z) =
      List.replicate k [] ++ pySplitChar '/' z := by
  induction k with
  | zero => simp
  | succ k ih =>
    rw [List.replicate_succ, List.cons_append, pySplitChar_cons_sep, ih]
    simp [List.replicate_succ]

theorem take_one_append (s x : List Char) (hs : s ≠ []) :
    (s ++ x).take 1 = s.take 1 := by
  rcases s with _ | ⟨c, cs⟩
  · exact absurd rfl hs
  · simp

theorem initialSlashes_pos_of_take (s : List Char) (h : s.take 1 = ['/']) :
    1 ≤ initialSlashes s := by
  rw [initialSlashes, if_pos h]
  split <;> omega

theorem filter_split_normpath (s : List Char) (h : 1 ≤ initialSlashes s) :
    (pySplitChar '/' (normpath s)).filter (fun c => c ≠ []) = normComps s := by
  have hs : s ≠ [] := by
    intro h0
    subst h0
    simp [initialSlashes] at h
  have hentries := normComps_entries s
  rcases hNC : normComps s with _ | ⟨n0, rest⟩
  · have hres : normpath s = List.replicate (initialSlashes s) '/' := by
      rw [normpath, if_neg hs, hNC]
      have hint : (['/'] : List Char).intercalate [] = [] := rfl
      rw [hint, List.append_nil,
        if_neg (by simp only [ne_eq, List.replicate_eq_nil_iff]; omega)]
    rw [hres,
      show (List.replicate (initialSlashes s) '/' : List Char) =
        List.replicate (initialSlashes s) '/' ++ [] by simp,
      pySplitChar_replicate_slash]
    simp [pySplitChar]
  · have hn0 := hentries n0 (hNC ▸ List.mem_cons_self n0 rest)
    have hrest : ∀ p ∈ rest, '/' ∉ p :=
      fun p hp => (hentries p (hNC ▸ List.mem_cons_of_mem n0 hp)).2
    have hne2 : (List.replicate (initialSlashes s) '/' ++
        (n0 ++ (rest.map (fun p => '/' :: p)).flatten) : List Char) ≠ [] := by
      simp only [ne_eq, List.append_eq_nil, List.replicate_eq_nil_iff]
      intro hcon
      omega
    have hres : normpath s = List.replicate (initialSlashes s) '/' ++
        (n0 ++ (rest.map (fun p => '/' :: p)).flatten) := by
      rw [normpath, if_neg hs, hNC, intercalate_eq_flatten]
      simp only [List.singleton_append]
      rw [if_neg hne2]
    rw [hres, pySplitChar_replicate_slash,
      pySplitChar_flatten rest n0 hrest hn0.2, List.filter_append]
    have h1 : (List.replicate (initialSlashes s) ([] : List Char)).filter
        (fun c => c ≠ []) = [] := by
      rw [List.filter_eq_nil_iff]
      intro a ha
      simp [List.eq_of_mem_replicate ha]
    have h2 : ((n0 :: rest).filter (fun c => c ≠ []) :
        List (List Char)) = n0 :: rest := by
      rw [List.filter_eq_self]
      intro a ha
      have := hentries a (hNC ▸ ha)
      simpa using this.1
    rw [h1, h2]
    simp

theorem normComps_pyJoin_single (s b : List Char) (hs : s ≠ [])
    (hb : NormalSeg b) :
    normComps (pyJoin s [b]) = normComps s ++ [b] := by
  have hbne := hb.1
  have hbs : '/' ∉ b := hb.2.2.2
  have hslash := initialSlashes_pyJoin_single s b hs hbne hbs
  rw [pyJoin_single, if_neg (take_one_ne_slash hbne hbs)] at hslash ⊢
  by_cases hend : s = [] ∨ s.getLast? = some '/'
  · rw [if_pos hend] at hslash ⊢
    rcases hend with rfl | hend
    · exact absurd rfl hs
    obtain ⟨P, hP⟩ : ∃ P, s = P ++ ['/'] := by
      refine ⟨s.dropLast, ?_⟩
      exact (List.dropLast_append_getLast? '/' (by rw [hend]; rfl)).symm
    rw [hP] at hslash ⊢
    have hsplit1 : pySplitChar '/' ((P ++ ['/']) ++ b) =
        pySplitChar '/' P ++ [b] := by
      rw [List.append_assoc, List.singleton_append, pySplitChar_append,
        pySplitChar_of_not_mem '/' b hbs]
    have hsplit2 : pySplitChar '/' (P ++ ['/']) =
        pySplitChar '/' P ++ [[]] := by
      rw [show (P ++ ['/'] : List Char) = P ++ '/' :: [] by simp,
        pySplitChar_append]
      rfl
    rw [normComps, normComps, hslash, hsplit1, hsplit2, List.foldl_append,
      List.foldl_append]
    simp only [List.foldl_cons, List.foldl_nil]
    rw [normCompsStep_nil, normCompsStep_normal _ _ b hb]
  · rw [if_neg hend] at hslash ⊢
    have hsplit : pySplitChar '/' (s ++ '/' :: b) =
        pySplitChar '/' s ++ [b] := by
      rw [pySplitChar_append, pySplitChar_of_not_mem '/' b hbs]
    rw [normComps, normComps, hslash, hsplit, List.foldl_append]
    simp only [List.foldl_cons, List.foldl_nil]
    rw [normCompsStep_normal _ _ b hb]

theorem commonPrefixLen_left (l m : List (List Char)) :
    commonPrefixLen l (l ++ m) = l.length := by
  induction l with
  | nil => cases m <;> rfl
  | cons a as ih => simp [commonPrefixLen, ih]

theorem map_slashify_id (s : List Char) (h : '\\' ∉ s) :
    s.map slashify = s := by
  induction s with
  | nil => rfl
  | cons c cs ih =>
    have hc : c ≠ '\\' := fun hcc => h (hcc ▸ List.mem_cons_self c cs)
    rw [List.map_cons, ih (fun hm => h (List.mem_cons_of_mem c hm))]
    simp [slashify, hc]

theorem getLastD_mem {α : Type} (l : List α) (d : α) (h : l ≠ []) :
    l.getLastD d ∈ l := by
  rw [List.getLastD_eq_getLast?, List.getLast?_eq_getLast_of_ne_nil h,
    Option.getD_some]
  exact List.getLast_mem h

theorem take_one_pyJoin_single (s b : List Char) (hs : s ≠ [])
    (hbne : b ≠ []) (hbs : '/' ∉ b) :
    (pyJoin s [b]).take 1 = s.take 1 := by
  rw [pyJoin_single, if_neg (take_one_ne_slash hbne hbs)]
  split
  · exact take_one_append s b hs
  · exact take_one_append s ('/' :: b) hs

theorem mem_pyJoin_single (x y : List Char) (c : Char)
    (hc : c ∈ pyJoin x [y]) : c ∈ x ∨ c ∈ y ∨ c = '/' := by
  rw [pyJoin_single] at hc
  split at hc
  · exact Or.inr (Or.inl hc)
  · split at hc
    · rcases List.mem_append.mp hc with h | h
      · exact Or.inl h
      · exact Or.inr (Or.inl h)
    · rcases List.mem_append.mp hc with h | h
      · exact Or.inl h
      · rcases List.mem_cons.mp h with rfl | h2
        · exact Or.inr (Or.inr rfl)
        · exact Or.inr (Or.inl h2)

theorem pyJoin_join_assoc (cwd s b : List Char) (hs : s ≠ [])
    (hns : ¬s.take 1 = ['/']) (hbne : b ≠ []) (hbs : '/' ∉ b) :
    pyJoin cwd [pyJoin s [b]] = pyJoin (pyJoin cwd [s]) [b] := by
  have hb1 := take_one_ne_slash hbne hbs
  have hj1 : (pyJoin s [b]).take 1 = s.take 1 :=
    take_one_pyJoin_single s b hs hbne hbs
  by_cases hsend : s = [] ∨ s.getLast? = some '/'
  · have hsend2 : s.getLast? = some '/' := by
      rcases hsend with rfl | hsend
      · exact absurd rfl hs
      · exact hsend
    have hj : pyJoin s [b] = s ++ b := by
      rw [pyJoin_single, if_neg hb1, if_pos hsend]
    by_cases hcw : cwd = [] ∨ cwd.getLast? = some '/'
    · have hJ1 : pyJoin cwd [s] = cwd ++ s := by
        rw [pyJoin_single, if_neg hns, if_pos hcw]
      have hL : pyJoin cwd [pyJoin s [b]] = cwd ++ (s ++ b) := by
        rw [hj, pyJoin_single, if_neg (by rw [take_one_append s b hs]; exact hns),
          if_pos hcw]
      have hR : pyJoin (pyJoin cwd [s]) [b] = (cwd ++ s) ++ b := by
        rw [hJ1, pyJoin_single, if_neg hb1, if_pos (Or.inr (by
          rw [List.getLast?_append_of_ne_nil cwd hs]; exact hsend2))]
      rw [hL, hR, List.append_assoc]
    · have hJ1 : pyJoin cwd [s] = cwd ++ '/' :: s := by
        rw [pyJoin_single, if_neg hns, if_neg hcw]
      have hL : pyJoin cwd [pyJoin s [b]] = cwd ++ '/' :: (s ++ b) := by
        rw [hj, pyJoin_single, if_neg (by rw [take_one_append s b hs]; exact hns),
          if_neg hcw]
      have hR : pyJoin (pyJoin cwd [s]) [b] = (cwd ++ '/' :: s) ++ b := by
        rw [hJ1, pyJoin_single, if_neg hb1, if_pos (Or.inr (by
          rw [show (cwd ++ '/' :: s : List Char) = (cwd ++ ['/']) ++ s by simp,
            List.getLast?_append_of_ne_nil _ hs]
          exact hsend2))]
      rw [hL, hR]
      simp
  · push_neg at hsend
    have hj : pyJoin s [b] = s ++ '/' :: b := by
      rw [pyJoin_single, if_neg hb1, if_neg (by push_neg; exact hsend)]
    by_cases hcw : cwd = [] ∨ cwd.getLast? = some '/'
    · have hJ1 : pyJoin cwd [s] = cwd ++ s := by
        rw [pyJoin_single, if_neg hns, if_pos hcw]
      have hL : pyJoin cwd [pyJoin s [b]] = cwd ++ (s ++ '/' :: b) := by
        rw [hj, pyJoin_single,
          if_neg (by rw [take_one_append s ('/' :: b) hs]; exact hns),
          if_pos hcw]
      have hR : pyJoin (pyJoin cwd [s]) [b] = (cwd ++ s) ++ '/' :: b := by
        rw [hJ1, pyJoin_single, if_neg hb1, if_neg (by
          push_neg
          refine ⟨by simp [hs], ?_⟩
          rw [List.getLast?_append_of_ne_nil cwd hs]
          exact hsend.2)]
      rw [hL, hR, List.append_assoc]
    · have hJ1 : pyJoin cwd [s] = cwd ++ '/' :: s := by
        rw [pyJoin_single, if_neg hns, if_neg hcw]
      have hL : pyJoin cwd [pyJoin s [b]] = cwd ++ '/' :: (s ++ '/' :: b) := by
        rw [hj, pyJoin_single,
          if_neg (by rw [take_one_append s ('/' :: b) hs]; exact hns),
          if_neg hcw]
      have hR : pyJoin (pyJoin cwd [s]) [b] = (cwd ++ '/' :: s) ++ '/' :: b := by
        rw [hJ1, pyJoin_single, if_neg hb1, if_neg (by
          push_neg
          refine ⟨by simp, ?_⟩
          rw [show (cwd ++ '/' :: s : List Char) = (cwd ++ ['/']) ++ s by simp,
            List.getLast?_append_of_ne_nil _ hs]
          exact hsend.2)]
      rw [hL, hR]
      simp

theorem absComps_pyJoin_single (cwd s b : List Char)
    (hcwd : isAbs cwd = true) (hs : s ≠ []) (hb : NormalSeg b) :
    absComps cwd (pyJoin s [b]) = absComps cwd s ++ [b] := by
  have hcw1 : cwd.take 1 = ['/'] := by simpa [isAbs] using hcwd
  have hcwne : cwd ≠ [] := by
    intro h
    subst h
    simp at hcw1
  have htake : (pyJoin s [b]).take 1 = s.take 1 :=
    take_one_pyJoin_single s b hs hb.1 hb.2.2.2
  by_cases habs : s.take 1 = ['/']
  · have h2 : isAbs s = true := by simp [isAbs, habs]
    have h1 : isAbs (pyJoin s [b]) = true := by simp [isAbs, htake, habs]
    rw [absComps, absComps, abspath, abspath, if_pos h1, if_pos h2]
    have hsl : 1 ≤ initialSlashes s := initialSlashes_pos_of_take s habs
    have hsl2 : 1 ≤ initialSlashes (pyJoin s [b]) := by
      rw [initialSlashes_pyJoin_single s b hs hb.1 hb.2.2.2]
      exact hsl
    rw [filter_split_normpath _ hsl2, filter_split_normpath _ hsl,
      normComps_pyJoin_single s b hs hb]
  · have h2 : ¬(isAbs s = true) := by simp [isAbs, habs]
    have h1 : ¬(isAbs (pyJoin s [b]) = true) := by
      simp only [isAbs, htake]
      simpa using habs
    rw [absComps, absComps, abspath, abspath, if_neg h1, if_neg h2,
      pyJoin_join_assoc cwd s b hs habs hb.1 hb.2.2.2]
    have hS1ne : pyJoin cwd [s] ≠ [] := by
      rw [pyJoin_single, if_neg habs]
      split
      · simp [hcwne]
      · simp
    have hS1take : (pyJoin cwd [s]).take 1 = ['/'] := by
      rw [pyJoin_single, if_neg habs]
      split
      · rw [take_one_append cwd s hcwne]
        exact hcw1
      · rw [take_one_append cwd ('/' :: s) hcwne]
        exact hcw1
    have hsl : 1 ≤ initialSlashes (pyJoin cwd [s]) :=
      initialSlashes_pos_of_take _ hS1take
    have hsl2 : 1 ≤ initialSlashes (pyJoin (pyJoin cwd [s]) [b]) := by
      rw [initialSlashes_pyJoin_single _ b hS1ne hb.1 hb.2.2.2]
      exact hsl
    rw [filter_split_normpath _ hsl2, filter_split_normpath _ hsl,
      normComps_pyJoin_single _ b hS1ne hb]

theorem audioRewrite_eq (cwd model3 url : List Char)
    (hcwd : isAbs cwd = true)
    (hdir : posixDirname model3 ≠ [])
    (hdsl : '\\' ∉ posixDirname model3)
    (hfn1 : posixBasename url ≠ [])
    (hfn2 : posixBasename url ≠ ['.'])
    (hfn3 : posixBasename url ≠ ['.', '.'])
    (hfsl : '\\' ∉ posixBasename url) :
    audioRewrite cwd model3 url = chars "audio/" ++ posixBasename url := by
  have hfns : '/' ∉ posixBasename url :=
    not_mem_of_mem_pySplitChar '/' url _
      (getLastD_mem _ _ (pySplitChar_ne_nil '/' url))
  have hfnN : NormalSeg (posixBasename url) := ⟨hfn1, hfn2, hfn3, hfns⟩
  have haudioN : NormalSeg (chars "audio") := by decide
  have hj1ne : pyJoin (posixDirname model3) [chars "audio"] ≠ [] := by
    rw [pyJoin_single, if_neg (by decide)]
    split
    · simp [hdir]
    · simp
  have hlapfull : pyJoin (posixDirname model3)
      [chars "audio", posixBasename url] =
      pyJoin (pyJoin (posixDirname model3) [chars "audio"])
        [posixBasename url] := rfl
  have hnob : '\\' ∉ pyJoin (posixDirname model3)
      [chars "audio", posixBasename url] := by
    intro hmem
    rw [hlapfull] at hmem
    rcases mem_pyJoin_single _ _ _ hmem with h | h | h
    · rcases mem_pyJoin_single _ _ _ h with h2 | h2 | h2
      · exact hdsl h2
      · revert h2
        decide
      · exact absurd h2 (by decide)
    · exact hfsl h
    · exact absurd h (by decide)
  have hmapid : (pyJoin (posixDirname model3)
      [chars "audio", posixBasename url]).map slashify =
      pyJoin (posixDirname model3) [chars "audio", posixBasename url] :=
    map_slashify_id _ hnob
  rw [audioRewrite]
  simp only [hmapid]
  rw [relpath, hlapfull,
    absComps_pyJoin_single cwd _ _ hcwd hj1ne hfnN,
    absComps_pyJoin_single cwd _ _ hcwd hdir haudioN]
  rw [List.append_assoc, commonPrefixLen_left]
  have hdrop : ((absComps cwd (posixDirname model3) ++
      ([chars "audio"] ++ [posixBasename url])).drop
        (absComps cwd (posixDirname model3)).length :
      List (List Char)) = [chars "audio"] ++ [posixBasename url] :=
    List.drop_left _ _
  rw [hdrop]
  simp only [Nat.sub_self, List.replicate_zero, List.nil_append]
  have hint : List.intercalate ['/'] [chars "audio", posixBasename url] =
      chars "audio" ++ '/' :: posixBasename url := by
    rw [intercalate_eq_flatten]
    simp
  rw [if_neg (by simp)]
  simp only [List.singleton_append]
  rw [hint]
  have hfin : (chars "audio" ++ '/' :: posixBasename url : List Char) =
      chars "audio/" ++ posixBasename url := rfl
  rw [hfin]
  exact map_slashify_id _ (by
    intro hmem
    rcases List.mem_append.mp hmem with h | h
    · exact absurd h (by decide)
    · exact hfsl h)

/-! ## Claim C10 -/

theorem dictGet_dictSet_self (d : PyDict) (k : String) (v : Json) :
    dictGet (dictSet d k v) k = some v := by
  induction d with
  | nil => simp [dictSet, dictHas, dictGet, List.find?]
  | cons p d ih =>
    by_cases hp : p.1 = k
    · have hh : dictHas (p :: d) k = true := by simp [dictHas, hp]
      rw [dictSet, if_pos hh, List.map_cons, if_pos hp]
      simp [dictGet, List.find?]
    · by_cases hd : dictHas d k
      · have hh : dictHas (p :: d) k = true := by
          rw [dictHas, List.any_cons]
          rw [dictHas] at hd
          simp [hd]
        rw [dictSet, if_pos hh, List.map_cons, if_neg hp]
        have hprev := ih
        rw [dictSet, if_pos hd] at hprev
        simpa [dictGet, List.find?, hp] using hprev
      · have hd2 : (d.any fun q => q.1 = k) = false := by
          rw [dictHas] at hd
          exact Bool.eq_false_iff.mpr hd
        have hh : ¬(dictHas (p :: d) k = true) := by
          rw [dictHas, List.any_cons]
          simp [hp, hd2]
        rw [dictSet, if_neg hh]
        have hprev := ih
        rw [dictSet, if_neg hd] at hprev
        show dictGet ((p :: d) ++ [(k, v)]) k = some v
        simpa [dictGet, List.find?, hp] using hprev

theorem processMotionAudio_snd (dl : String → Bool) (cwd model3 : List Char)
    (m : PyDict) :
    (processMotionAudio dl cwd model3 m).2 = true ↔
      ∃ u, dictGet m "Audio" = some (Json.str u) ∧ dl u = true := by
  cases hg : dictGet m "Audio" with
  | none => simp [processMotionAudio, hg]
  | some j =>
    cases j with
    | str u =>
      by_cases hd : dl u = true
      · simp [processMotionAudio, hg, hd]
      · simp [processMotionAudio, hg, hd]
    | num n => simp [processMotionAudio, hg]
    | boolean b => simp [processMotionAudio, hg]
    | null => simp [processMotionAudio, hg]
    | arr xs => simp [processMotionAudio, hg]
    | obj fs => simp [processMotionAudio, hg]

theorem processAudioCore_found_iff (dl : String → Bool)
    (cwd model3 : List Char) (ms : List (String × List PyDict)) :
    (processAudioCore dl cwd model3 ms).2 = true ↔
      ∃ g ∈ ms, ∃ m ∈ g.2, ∃ u,
        dictGet m "Audio" = some (Json.str u) ∧ dl u = true := by
  rw [processAudioCore]
  simp only [List.any_eq_true, List.mem_map]
  constructor
  · rintro ⟨g2, ⟨g, hg, rfl⟩, r, hr, hr2⟩
    rcases List.mem_map.mp hr with ⟨m, hm, rfl⟩
    exact ⟨g, hg, m, hm,
      (processMotionAudio_snd dl cwd model3 m).mp hr2⟩
  · rintro ⟨g, hg, m, hm, u, hu, hdl⟩
    refine ⟨(g.1, g.2.map (processMotionAudio dl cwd model3)), ⟨g, hg, rfl⟩,
      processMotionAudio dl cwd model3 m, List.mem_map_of_mem _ hm, ?_⟩
    exact (processMotionAudio_snd dl cwd model3 m).mpr ⟨u, hu, hdl⟩

theorem fetchEvents_no_write (ms : List (String × List PyDict))
    (p : List Char) : AudioEvent.writeDescriptor p ∉ fetchEvents ms := by
  intro h
  rw [fetchEvents] at h
  rcases List.mem_flatten.mp h with ⟨l, hl, hmem⟩
  rcases List.mem_map.mp hl with ⟨g, _, rfl⟩
  rcases List.mem_filterMap.mp hmem with ⟨m, _, hfm⟩
  rcases hgm : dictGet m "Audio" with _ | j
  · rw [hgm] at hfm
    simp at hfm
  · rw [hgm] at hfm
    cases j <;> simp at hfm

/-- C10: src/2audio.py process_audio creates the version-qualified
webversion backup as its very first action, before any other processing;
it writes the descriptor back to disk exactly when at least one per-motion
Audio reference was downloaded successfully; when the Motions mapping is
missing/empty, the descriptor is unreadable, or every download fails, the
on-disk Motions content is unchanged; on a write every motion whose Audio
download succeeded has its Audio field rewritten in place to the relative
path audio/<basename of the url> (under the stated path-shape
assumptions), and the others are untouched. -/
theorem C10_audio_descriptor_write (dl : String → Bool)
    (cwd model3 ver : List Char) (copyOk : Bool)
    (parsed : Option (List (String × List PyDict))) :
    ((processAudio dl cwd model3 ver copyOk parsed).events.head? =
      some (AudioEvent.backup (backupName model3 ver))) ∧
    ((AudioEvent.writeDescriptor model3 ∈
        (processAudio dl cwd model3 ver copyOk parsed).events) ↔
      (copyOk = true ∧ ∃ ms, parsed = some ms ∧ ∃ g ∈ ms, ∃ m ∈ g.2,
        ∃ u, dictGet m "Audio" = some (Json.str u) ∧ dl u = true)) ∧
    ((AudioEvent.writeDescriptor model3 ∉
        (processAudio dl cwd model3 ver copyOk parsed).events) →
      (processAudio dl cwd model3 ver copyOk parsed).diskMotions =
        parsed.getD []) ∧
    (∀ ms, parsed = some ms → copyOk = true →
      (processAudioCore dl cwd model3 ms).2 = true →
      (processAudio dl cwd model3 ver copyOk parsed).diskMotions =
        (ms.map (fun g =>
          (g.1, g.2.map (fun m => (processMotionAudio dl cwd model3 m).1))))) ∧
    (∀ (m : PyDict) (u : String),
      dictGet m "Audio" = some (Json.str u) → dl u = true →
      isAbs cwd = true → posixDirname model3 ≠ [] →
      '\\' ∉ posixDirname model3 →
      posixBasename u.data ≠ [] → posixBasename u.data ≠ ['.'] →
      posixBasename u.data ≠ ['.', '.'] → '\\' ∉ posixBasename u.data →
      dictGet (processMotionAudio dl cwd model3 m).1 "Audio" =
        some (Json.str (String.mk
          (chars "audio/" ++ posixBasename u.data)))) := by
  have hlast : ∀ (m : PyDict) (u : String),
      dictGet m "Audio" = some (Json.str u) → dl u = true →
      isAbs cwd = true → posixDirname model3 ≠ [] →
      '\\' ∉ posixDirname model3 →
      posixBasename u.data ≠ [] → posixBasename u.data ≠ ['.'] →
      posixBasename u.data ≠ ['.', '.'] → '\\' ∉ posixBasename u.data →
      dictGet (processMotionAudio dl cwd model3 m).1 "Audio" =
        some (Json.str (String.mk
          (chars "audio/" ++ posixBasename u.data))) := by
    intro m u hget hdl h1 h2 h3 h4 h5 h6 h7
    rw [processMotionAudio, hget]
    simp only [hdl, if_pos]
    rw [dictGet_dictSet_self,
      audioRewrite_eq cwd model3 u.data h1 h2 h3 h4 h5 h6 h7]
  rcases hcopy : copyOk with _ | _
  · -- copy failed: only the backup happens
    refine ⟨rfl, ?_, ?_, ?_, hlast⟩
    · simp [processAudio]
    · intro _
      rfl
    · intro ms _ hco
      exact absurd hco (by simp)
  · cases hp : parsed with
    | none =>
      refine ⟨rfl, ?_, ?_, ?_, hlast⟩
      · simp [processAudio]
      · intro _
        rfl
      · intro ms hms
        simp at hms
    | some ms =>
      rcases hemp : ms.isEmpty with _ | _
      · -- non-empty Motions
        rcases hcore : (processAudioCore dl cwd model3 ms).2 with _ | _
        · -- no audio succeeded: no write
          have hrun : processAudio dl cwd model3 ver true (some ms) =
              ⟨AudioEvent.backup (backupName model3 ver) :: fetchEvents ms,
                ms⟩ := by
            rw [processAudio]
            simp [hemp, hcore]
          refine ⟨by rw [hrun]; rfl, ?_, ?_, ?_, hlast⟩
          · rw [hrun]
            constructor
            · intro hmem
              exfalso
              rcases List.mem_cons.mp hmem with h | h
              · exact absurd h (by simp)
              · exact fetchEvents_no_write ms model3 h
            · rintro ⟨-, ms2, hms2, g, hg, m, hm, u, hu, hdl⟩
              exfalso
              have hms2e : ms2 = ms := by
                injection hms2 with h
                exact h.symm
              subst hms2e
              have : (processAudioCore dl cwd model3 ms2).2 = true :=
                (processAudioCore_found_iff dl cwd model3 ms2).mpr
                  ⟨g, hg, m, hm, u, hu, hdl⟩
              rw [hcore] at this
              exact absurd this (by simp)
          · intro _
            rw [hrun]
            rfl
          · intro ms2 hms2 _ hco
            have hms2e : ms2 = ms := by
              injection hms2 with h
              exact h.symm
            subst hms2e
            rw [hcore] at hco
            exact absurd hco (by simp)
        · -- some audio succeeded: write happens
          have hrun : processAudio dl cwd model3 ver true (some ms) =
              ⟨AudioEvent.backup (backupName model3 ver) ::
                fetchEvents ms ++ [AudioEvent.writeDescriptor model3],
                (processAudioCore dl cwd model3 ms).1⟩ := by
            rw [processAudio]
            simp [hemp, hcore]
          refine ⟨by rw [hrun]; rfl, ?_, ?_, ?_, hlast⟩
          · rw [hrun]
            constructor
            · intro _
              exact ⟨rfl, ms, rfl,
                (processAudioCore_found_iff dl cwd model3 ms).mp hcore⟩
            · intro _
              simp
          · intro hnot
            exfalso
            apply hnot
            rw [hrun]
            simp
          · intro ms2 hms2 _ _
            have hms2e : ms2 = ms := by
              injection hms2 with h
              exact h.symm
            subst hms2e
            rw [hrun]
            simp [processAudioCore, List.map_map, Function.comp]
      · -- empty Motions: nothing to do
        have hms : ms = [] := List.isEmpty_iff.mp hemp
        subst hms
        have hrun : processAudio dl cwd model3 ver true (some []) =
            ⟨[AudioEvent.backup (backupName model3 ver)], []⟩ := by
          rw [processAudio]
          simp
        refine ⟨by rw [hrun]; rfl, ?_, ?_, ?_, hlast⟩
        · rw [hrun]
          constructor
          · intro hmem
            exact absurd hmem (by simp)
          · rintro ⟨-, ms2, hms2, g, hg, -⟩
            have hms2e : ms2 = [] := by
              injection hms2 with h
              exact h.symm
            subst hms2e
            simp at hg
        · intro _
          rw [hrun]
          rfl
        · intro ms2 hms2 _ hco
          have hms2e : ms2 = [] := by
            injection hms2 with h
            exact h.symm
          subst hms2e
          exact absurd hco (by simp [processAudioCore])

/-- Witness for C10 at a concrete descriptor with one motion whose audio
download succeeds. -/
theorem C10_audio_descriptor_write_witness :
    AudioEvent.writeDescriptor (chars "live2d/m/m.model3.json") ∈
      (processAudio (fun _ => true) (chars "/srv")
        (chars "live2d/m/m.model3.json") (chars "v1") true
        (some [("g", [[("Audio", Json.str "https://h/a.mp3")]])])).events :=
  ((C10_audio_descriptor_write (fun _ => true) (chars "/srv")
    (chars "live2d/m/m.model3.json") (chars "v1") true
    (some [("g", [[("Audio", Json.str "https://h/a.mp3")]])])).2.1).mpr
    ⟨rfl, [("g", [[("Audio", Json.str "https://h/a.mp3")]])], rfl,
      ("g", [[("Audio", Json.str "https://h/a.mp3")]]),
      List.mem_singleton_self _,
      [("Audio", Json.str "https://h/a.mp3")], List.mem_singleton_self _,
      "https://h/a.mp3", rfl, rfl⟩
